import Mathlib

/-!
Verification of the OpenAPI schema snapshot tool (scripts/openapi.py).

The development shallowly embeds the pure core of the script — subset
extraction (`extract_paths` with its helpers `_collect_refs`, `_resolve_ref`,
`_prune_components`) and structural diffing (`diff_schemas`,
`_diff_path_item`, `_diff_operation`, `_param_key`, `_extract_body_schema`) —
as executable Lean functions over a JSON-like value type, and proves the
documented properties of those functions.  Leading underscores of the Python
helper names are dropped.

Python dictionaries are modelled as association lists with Python dict
semantics (assignment replaces an existing binding in place, otherwise
appends; lookup takes the first binding).  Python sets of strings are
modelled as duplicate-free lists in discovery order (`set.add` appends when
the element is new), so `len` of the set is the list's length.  Python
strings are Lean strings, with `str.split`, `str.startswith`, slicing and
comparison modelled on the underlying character lists (a Python `str` is a
sequence of code points, compared lexicographically).  Equality of
`json.dumps(·, sort_keys=True)` serialisations is modelled by structural
equality after recursively sorting object keys (`canon`).  The unbounded
`while` fixed-point loop of `extract_paths` is modelled by an explicitly
fuelled loop whose fuel provably suffices to reach the fixed point (see the
termination theorem for the loop), mirroring the loop's documented
termination argument.  Python iterates a `set` in unspecified order where
`_prune_components` builds its result dict; since dict equality ignores
insertion order, the model fixes the canonical sorted order.  Places where
the Python code would raise `TypeError`/`AttributeError` on values outside
the JSON shapes it expects (for example iterating a non-list `parameters`
entry) are totalised to neutral defaults; all claims concern documents on
which the script is total.
-/

/-- JSON-like values: the parsed documents the script operates on.
Numbers are modelled as integers (no compared code path distinguishes a
float from its serialised form in these documents). -/
inductive J where
  | null
  | jb (x : Bool)
  | ji (x : Int)
  | js (x : String)
  | arr (xs : List J)
  | obj (fs : List (String × J))

mutual

/-- Decidable equality of JSON values (Python `==` on parsed documents). -/
def J.decEq : (a b : J) → Decidable (a = b)
  | .null, .null => .isTrue rfl
  | .jb x, .jb y =>
      match Bool.decEq x y with
      | .isTrue h => .isTrue (congrArg J.jb h)
      | .isFalse h => .isFalse (fun e => h (by injection e))
  | .ji x, .ji y =>
      match Int.decEq x y with
      | .isTrue h => .isTrue (congrArg J.ji h)
      | .isFalse h => .isFalse (fun e => h (by injection e))
  | .js x, .js y =>
      match String.decEq x y with
      | .isTrue h => .isTrue (congrArg J.js h)
      | .isFalse h => .isFalse (fun e => h (by injection e))
  | .arr xs, .arr ys =>
      match J.decEqList xs ys with
      | .isTrue h => .isTrue (congrArg J.arr h)
      | .isFalse h => .isFalse (fun e => h (by injection e))
  | .obj fs, .obj gs =>
      match J.decEqFields fs gs with
      | .isTrue h => .isTrue (congrArg J.obj h)
      | .isFalse h => .isFalse (fun e => h (by injection e))
  | .null, .jb _ => .isFalse (fun e => J.noConfusion e)
  | .null, .ji _ => .isFalse (fun e => J.noConfusion e)
  | .null, .js _ => .isFalse (fun e => J.noConfusion e)
  | .null, .arr _ => .isFalse (fun e => J.noConfusion e)
  | .null, .obj _ => .isFalse (fun e => J.noConfusion e)
  | .jb _, .null => .isFalse (fun e => J.noConfusion e)
  | .jb _, .ji _ => .isFalse (fun e => J.noConfusion e)
  | .jb _, .js _ => .isFalse (fun e => J.noConfusion e)
  | .jb _, .arr _ => .isFalse (fun e => J.noConfusion e)
  | .jb _, .obj _ => .isFalse (fun e => J.noConfusion e)
  | .ji _, .null => .isFalse (fun e => J.noConfusion e)
  | .ji _, .jb _ => .isFalse (fun e => J.noConfusion e)
  | .ji _, .js _ => .isFalse (fun e => J.noConfusion e)
  | .ji _, .arr _ => .isFalse (fun e => J.noConfusion e)
  | .ji _, .obj _ => .isFalse (fun e => J.noConfusion e)
  | .js _, .null => .isFalse (fun e => J.noConfusion e)
  | .js _, .jb _ => .isFalse (fun e => J.noConfusion e)
  | .js _, .ji _ => .isFalse (fun e => J.noConfusion e)
  | .js _, .arr _ => .isFalse (fun e => J.noConfusion e)
  | .js _, .obj _ => .isFalse (fun e => J.noConfusion e)
  | .arr _, .null => .isFalse (fun e => J.noConfusion e)
  | .arr _, .jb _ => .isFalse (fun e => J.noConfusion e)
  | .arr _, .ji _ => .isFalse (fun e => J.noConfusion e)
  | .arr _, .js _ => .isFalse (fun e => J.noConfusion e)
  | .arr _, .obj _ => .isFalse (fun e => J.noConfusion e)
  | .obj _, .null => .isFalse (fun e => J.noConfusion e)
  | .obj _, .jb _ => .isFalse (fun e => J.noConfusion e)
  | .obj _, .ji _ => .isFalse (fun e => J.noConfusion e)
  | .obj _, .js _ => .isFalse (fun e => J.noConfusion e)
  | .obj _, .arr _ => .isFalse (fun e => J.noConfusion e)

/-- Decidable equality of JSON arrays, elementwise. -/
def J.decEqList : (xs ys : List J) → Decidable (xs = ys)
  | [], [] => .isTrue rfl
  | [], _ :: _ => .isFalse (fun e => List.noConfusion e)
  | _ :: _, [] => .isFalse (fun e => List.noConfusion e)
  | x :: xs, y :: ys =>
      match J.decEq x y, J.decEqList xs ys with
      | .isTrue h1, .isTrue h2 => .isTrue (by rw [h1, h2])
      | .isFalse h1, _ => .isFalse (fun e => h1 (by injection e))
      | _, .isFalse h2 => .isFalse (fun e => h2 (by injection e))

/-- Decidable equality of JSON object field lists, elementwise. -/
def J.decEqFields : (fs gs : List (String × J)) → Decidable (fs = gs)
  | [], [] => .isTrue rfl
  | [], _ :: _ => .isFalse (fun e => List.noConfusion e)
  | _ :: _, [] => .isFalse (fun e => List.noConfusion e)
  | (k, v) :: fs, (l, w) :: gs =>
      match String.decEq k l, J.decEq v w, J.decEqFields fs gs with
      | .isTrue h1, .isTrue h2, .isTrue h3 => .isTrue (by rw [h1, h2, h3])
      | .isFalse h1, _, _ => .isFalse (fun e => by
          cases e; exact h1 rfl)
      | _, .isFalse h2, _ => .isFalse (fun e => by
          cases e; exact h2 rfl)
      | _, _, .isFalse h3 => .isFalse (fun e => by
          cases e; exact h3 rfl)

end

instance : DecidableEq J := J.decEq

/-- Python dict lookup `d[k]` / `d.get(k)` on an association list
(first binding wins; bindings are unique in lists the code builds). -/
def alGet (fs : List (String × J)) (k : String) : Option J :=
  match fs with
  | [] => none
  | (a, b) :: rest => if a = k then some b else alGet rest k

/-- Python dict assignment `d[k] = v`: replace an existing binding in
place, otherwise append a new binding at the end. -/
def alInsert (fs : List (String × J)) (k : String) (v : J) : List (String × J) :=
  match fs with
  | [] => [(k, v)]
  | (a, b) :: rest => if a = k then (k, v) :: rest else (a, b) :: alInsert rest k v

/-- Python `k in d` on an association list. -/
def alMem (fs : List (String × J)) (k : String) : Bool :=
  fs.any (fun p => p.1 == k)

/-- Python `d[k]` with a default that never surfaces where the code has
already checked membership. -/
def alGetD (fs : List (String × J)) (k : String) (d : J) : J := (alGet fs k).getD d

/-- The fields of a JSON object, or `[]` when the value is not an object. -/
def objFieldsOf (o : J) : List (String × J) :=
  match o with
  | .obj fs => fs
  | _ => []

/-- Python `d.get(k)` on a JSON value: `none` when the value is not an
object or lacks the key. -/
def jget (o : J) (k : String) : Option J :=
  match o with
  | .obj fs => alGet fs k
  | _ => none

/-- Python `d.get(k, default)`. -/
def jgetD (o : J) (k : String) (d : J) : J := (jget o k).getD d

/-- Python `k in d` for a JSON value expected to be an object. -/
def objMem (o : J) (k : String) : Bool := alMem (objFieldsOf o) k

/-- The list of keys of an object's field list (Python `set(d)` iterated;
key lists of dicts carry no duplicates). -/
def keysOfList (fs : List (String × J)) : List String := fs.map Prod.fst

/-- Python `str.split(sep)` for a one-character separator, on the code
point list of the string; `"".split(sep) == [""]`. -/
def splitChar (c : Char) : List Char → List (List Char)
  | [] => [[]]
  | x :: xs =>
      match splitChar c xs with
      | [] => [[]]
      | h :: t => if x = c then [] :: h :: t else (x :: h) :: t

/-- Python `s.split("/")` producing strings. -/
def split_slash (s : String) : List String := (splitChar '/' s.data).map (fun l => ⟨l⟩)

/-- Python `s.startswith(pre)`. -/
def py_starts_with (s pre : String) : Bool := pre.data.isPrefixOf s.data

/-- Python `s.upper()` (ASCII case mapping; all HTTP method names and
status codes in these documents are ASCII). -/
def py_upper (s : String) : String := ⟨s.data.map Char.toUpper⟩

/-- Lexicographic (code point) strict order on character lists: exactly
Python `<` on strings. -/
def strLt : List Char → List Char → Bool
  | [], [] => false
  | [], _ :: _ => true
  | _ :: _, [] => false
  | a :: as, b :: bs =>
      if a.toNat < b.toNat then true
      else if b.toNat < a.toNat then false
      else strLt as bs

/-- Python `s <= t` on strings (code point lexicographic order). -/
def py_str_le (s t : String) : Bool := !(strLt t.data s.data)

/-- Insert a string into an ascending list, keeping it ascending. -/
def insert_sorted (x : String) : List String → List String
  | [] => [x]
  | y :: ys => if py_str_le x y then x :: y :: ys else y :: insert_sorted x ys

/-- Ascending insertion sort: Python `sorted` on a collection of strings. -/
def sort_strings (l : List String) : List String := l.foldr insert_sorted []

/-- Python `sorted(set(l1) | set(l2))` for duplicate-free string lists. -/
def sorted_union (l1 l2 : List String) : List String :=
  sort_strings (l1 ++ l2.filter (fun x => !l1.contains x))

/-- Python `sorted(set(l1) - set(l2))` for duplicate-free string lists. -/
def sorted_sdiff (l1 l2 : List String) : List String :=
  sort_strings (l1.filter (fun x => !l2.contains x))

/-- Python `sorted(set(l1) & set(l2))` for duplicate-free string lists. -/
def sorted_inter (l1 l2 : List String) : List String :=
  sort_strings (l1.filter (fun x => l2.contains x))

/-- Insert a field into a key-ascending field list, keeping it ascending. -/
def insertField (p : String × J) : List (String × J) → List (String × J)
  | [] => [p]
  | q :: qs => if py_str_le p.1 q.1 then p :: q :: qs else q :: insertField p qs

/-- Key-ascending insertion sort of a field list, as `json.dumps` with
`sort_keys=True` serialises object keys in ascending order. -/
def sortFields : List (String × J) → List (String × J)
  | [] => []
  | p :: ps => insertField p (sortFields ps)

mutual

/-- Canonical form of a JSON value under sorted-key serialisation: two
values have equal `json.dumps(·, sort_keys=True)` strings exactly when
their canonical forms are equal. -/
def canon : J → J
  | .null => .null
  | .jb x => .jb x
  | .ji x => .ji x
  | .js x => .js x
  | .arr xs => .arr (canonList xs)
  | .obj fs => .obj (sortFields (canonFields fs))

/-- Canonicalise every element of an array. -/
def canonList : List J → List J
  | [] => []
  | x :: xs => canon x :: canonList xs

/-- Canonicalise every field value of an object. -/
def canonFields : List (String × J) → List (String × J)
  | [] => []
  | (k, v) :: fs => (k, canon v) :: canonFields fs

end

/-- Equality of `json.dumps(·, sort_keys=True)` serialisations, the deep
structural comparison `_diff_operation` uses. -/
def dumps_eq (a b : J) : Bool := canon a = canon b

/-- Python `set.add`: append the string when it is new (the set is a
duplicate-free list in discovery order). -/
def addRef (refs : List String) (r : String) : List String :=
  if refs.contains r then refs else refs ++ [r]

mutual

/-- The script's `_collect_refs(obj, refs)`: walk `obj` recursively and add
every string value of a `$ref` key to the set `refs` (threaded through). -/
def collect_refs : List String → J → List String
  | refs, .null => refs
  | refs, .jb _ => refs
  | refs, .ji _ => refs
  | refs, .js _ => refs
  | refs, .arr xs => collect_refs_list refs xs
  | refs, .obj fs =>
      collect_refs_fields
        (match alGet fs "$ref" with
         | some (.js r) => addRef refs r
         | _ => refs)
        fs

/-- `_collect_refs` over the items of an array, left to right. -/
def collect_refs_list : List String → List J → List String
  | refs, [] => refs
  | refs, x :: xs => collect_refs_list (collect_refs refs x) xs

/-- `_collect_refs` over the values of an object, left to right. -/
def collect_refs_fields : List String → List (String × J) → List String
  | refs, [] => refs
  | refs, (_, v) :: fs => collect_refs_fields (collect_refs refs v) fs

end

mutual

/-- The set of `$ref` strings occurring in a value: the contents of
`_collect_refs` as a finite set, used to reason about the closure. -/
def refsOf : J → Finset String
  | .null => ∅
  | .jb _ => ∅
  | .ji _ => ∅
  | .js _ => ∅
  | .arr xs => refsOfList xs
  | .obj fs =>
      (match alGet fs "$ref" with
       | some (.js r) => {r}
       | _ => ∅) ∪ refsOfFields fs

/-- `refsOf` over the items of an array. -/
def refsOfList : List J → Finset String
  | [] => ∅
  | x :: xs => refsOf x ∪ refsOfList xs

/-- `refsOf` over the values of an object. -/
def refsOfFields : List (String × J) → Finset String
  | [] => ∅
  | (_, v) :: fs => refsOf v ∪ refsOfFields fs

end

/-- The component-by-component walk of `_resolve_ref`: each step requires
the current value to be a mapping containing the next part. -/
def walk_pointer : J → List String → Option J
  | current, [] => some current
  | current, part :: rest =>
      match jget current part with
      | some v => walk_pointer v rest
      | none => none

/-- The script's `_resolve_ref(ref, schema)`: resolve a local `#/`-rooted
JSON pointer against the root document; any other form, or any failing
step of the walk, yields `none`. -/
def resolve_ref (ref : String) (schema : J) : Option J :=
  if py_starts_with ref "#/" then
    walk_pointer schema (split_slash ⟨ref.data.drop 2⟩)
  else none

/-- One iteration of the fixed-point loop in `extract_paths`: resolve every
reference in the snapshot of the set and collect the references inside
every resolved target into the set. -/
def refs_pass (schema : J) (needed : List String) : List String :=
  needed.foldl
    (fun acc ref =>
      match resolve_ref ref schema with
      | some obj => collect_refs acc obj
      | none => acc)
    needed

/-- The `while` loop of `extract_paths`: iterate `refs_pass` until an
iteration adds no reference (the set's size stops growing). -/
def refs_loop (schema : J) : Nat → List String → List String
  | 0, needed => needed
  | n + 1, needed =>
      let next := refs_pass schema needed
      if next.length = needed.length then next else refs_loop schema n next

/-- The reference-closure set computed by `extract_paths` for the kept
paths: seeded by `_collect_refs` over the kept path items, closed by the
fixed-point loop.  The fuel bounds the loop's iterations; the termination
theorem shows it suffices to reach the fixed point, so the fuelled loop
models the unbounded `while`. -/
def needed_refs (schema : J) (kept : J) : List String :=
  let init := collect_refs [] kept
  refs_loop schema (init.length + (collect_refs [] schema).length + 1) init

/-- The `pruned.setdefault(category, \x7b\x7d)[name] = v` step of
`_prune_components`. -/
def pruned_add (pruned : List (String × J)) (category name : String) (v : J) :
    List (String × J) :=
  let cur := match alGet pruned category with
    | some (.obj fs) => fs
    | _ => []
  alInsert pruned category (J.obj (alInsert cur name v))

/-- The script's `_prune_components(components, needed_refs)`: keep only the
`[category][name]` entries named by a `#/components/<category>/<name>`
reference (exactly two segments after the prefix) present in the set.
Python iterates the set in unspecified order; since the resulting dict's
equality ignores insertion order, the model iterates in sorted order. -/
def prune_components (components : J) (needed_refs : List String) :
    List (String × J) :=
  (sort_strings needed_refs).foldl
    (fun pruned ref =>
      if py_starts_with ref "#/components/" then
        match splitChar '/' (ref.data.drop 13) with
        | [category, name] =>
            let c : String := ⟨category⟩
            let n : String := ⟨name⟩
            if objMem components c && objMem (jgetD components c J.null) n then
              pruned_add pruned c n (jgetD (jgetD components c J.null) n J.null)
            else pruned
        | _ => pruned
      else pruned)
    []

/-- The paths-filtering loop of `extract_paths`: keep, in pattern order,
each pattern present in the document's `paths` mapping. -/
def kept_paths (all_paths : J) (paths : List String) : List (String × J) :=
  paths.foldl
    (fun acc pattern =>
      match jget all_paths pattern with
      | some v => alInsert acc pattern v
      | none => acc)
    []

/-- The script's `extract_paths(schema, paths)`: a copy of `schema`
containing only the requested paths and the transitively referenced
components. -/
def extract_paths (schema : J) (paths : List String) : J :=
  let all_paths := jgetD schema "paths" (J.obj [])
  let kept := kept_paths all_paths paths
  let components := jgetD schema "components" (J.obj [])
  let needed := needed_refs schema (J.obj kept)
  let kept_components := prune_components components needed
  let base := [("openapi", jgetD schema "openapi" (J.js "3.0.0")),
               ("info", jgetD schema "info" (J.obj [])),
               ("paths", J.obj kept)]
  if kept_components.isEmpty then J.obj base
  else J.obj (base ++ [("components", J.obj kept_components)])

/-- The script's `PATHS_WE_USE` constant: the default pattern allowlist. -/
def PATHS_WE_USE : List String :=
  ["/api/documents/",
   "/api/documents/bulk_edit/",
   "/api/documents/post_document/",
   "/api/documents/\x7bid\x7d/",
   "/api/documents/\x7bid\x7d/download/",
   "/api/tags/",
   "/api/tags/\x7bid\x7d/",
   "/api/correspondents/",
   "/api/correspondents/\x7bid\x7d/",
   "/api/document_types/",
   "/api/document_types/\x7bid\x7d/",
   "/api/bulk_edit_objects/"]

mutual

/-- Python `repr` of a JSON-parsed value, as an f-string would render a
non-string value (string escaping inside `repr` is approximated by plain
quoting; no compared code path depends on it). -/
def py_repr : J → String
  | .null => "None"
  | .jb true => "True"
  | .jb false => "False"
  | .ji n => toString n
  | .js s => "'" ++ s ++ "'"
  | .arr xs => "[" ++ py_repr_list xs ++ "]"
  | .obj fs => "\x7b" ++ py_repr_fields fs ++ "\x7d"

/-- Comma-separated `repr` of array items. -/
def py_repr_list : List J → String
  | [] => ""
  | [x] => py_repr x
  | x :: xs => py_repr x ++ ", " ++ py_repr_list xs

/-- Comma-separated `repr` of object fields. -/
def py_repr_fields : List (String × J) → String
  | [] => ""
  | [(k, v)] => "'" ++ k ++ "': " ++ py_repr v
  | (k, v) :: fs => "'" ++ k ++ "': " ++ py_repr v ++ ", " ++ py_repr_fields fs

end

/-- Python `str(v)` as an f-string interpolates a value. -/
def py_str : J → String
  | .js s => s
  | v => py_repr v

/-- The script's `_param_key(param)`: the string `"<in>:<name>"`, each field
replaced by `"?"` when missing. -/
def param_key (param : J) : String :=
  py_str (jgetD param "in" (J.js "?")) ++ ":" ++ py_str (jgetD param "name" (J.js "?"))

/-- The operation's `parameters` list (`op.get("parameters", [])`). -/
def params_of (op : J) : List J :=
  match jget op "parameters" with
  | some (.arr xs) => xs
  | _ => []

/-- The dict comprehension `\x7b_param_key(p): p for p in params\x7d`:
later entries overwrite earlier ones with the same key. -/
def param_map (ps : List J) : List (String × J) :=
  ps.foldl (fun acc p => alInsert acc (param_key p) p) []

/-- The script's `_extract_body_schema(operation)`: the schema under
`requestBody.content["application/json"]`, falling back to
`"multipart/form-data"` when the JSON media type is absent; `none` when no
schema is present. -/
def extract_body_schema (operation : J) : Option J :=
  let body := jgetD operation "requestBody" (J.obj [])
  let content := jgetD body "content" (J.obj [])
  let json_content :=
    jgetD content "application/json" (jgetD content "multipart/form-data" (J.obj []))
  jget json_content "schema"

/-- The status-code keys of an operation's `responses` mapping
(`set(op.get("responses", \x7b\x7d))`). -/
def response_keys (op : J) : List String :=
  keysOfList (objFieldsOf (jgetD op "responses" (J.obj [])))

/-- The script's `_diff_operation(method, old, new)`: parameter diffs over
the sorted union of parameter keys, then at most one request-body
descriptor, then added and removed response codes, every string prefixed
with the upper-cased method. -/
def diff_operation (method : String) (old new : J) : List String :=
  let tag := py_upper method
  let old_params := param_map (params_of old)
  let new_params := param_map (params_of new)
  let diffs :=
    (sorted_union (keysOfList old_params) (keysOfList new_params)).foldl
      (fun acc key =>
        if !alMem old_params key then acc ++ [tag ++ " param added: " ++ key]
        else if !alMem new_params key then acc ++ [tag ++ " param removed: " ++ key]
        else if !dumps_eq (alGetD old_params key J.null) (alGetD new_params key J.null) then
          acc ++ [tag ++ " param changed: " ++ key]
        else acc)
      []
  let old_body := extract_body_schema old
  let new_body := extract_body_schema new
  let diffs :=
    if !dumps_eq (old_body.getD J.null) (new_body.getD J.null) then
      diffs ++ [tag ++ " request body changed"]
    else diffs
  let diffs :=
    (sorted_sdiff (response_keys new) (response_keys old)).foldl
      (fun acc code => acc ++ [tag ++ " response added: " ++ code]) diffs
  let diffs :=
    (sorted_sdiff (response_keys old) (response_keys new)).foldl
      (fun acc code => acc ++ [tag ++ " response removed: " ++ code]) diffs
  diffs

/-- The script's `_diff_path_item(old, new)`: walk the sorted union of
method keys, skipping `parameters` and `x-` keys; report added and removed
methods, and delegate to `_diff_operation` for shared methods. -/
def diff_path_item (old new : J) : List String :=
  let all_methods :=
    sorted_union (keysOfList (objFieldsOf old)) (keysOfList (objFieldsOf new))
  all_methods.foldl
    (fun diffs method =>
      if py_starts_with method "x-" || method == "parameters" then diffs
      else if objMem new method && !objMem old method then
        diffs ++ ["method added: " ++ py_upper method]
      else if objMem old method && !objMem new method then
        diffs ++ ["method removed: " ++ py_upper method]
      else if objMem old method && objMem new method then
        diffs ++ diff_operation method (jgetD old method J.null) (jgetD new method J.null)
      else diffs)
    []

/-- The result of comparing two OpenAPI schemas (`SchemaDiff` in the
script); `changed_paths` is a mapping in sorted insertion order. -/
structure SchemaDiff where
  added_paths : List String
  removed_paths : List String
  changed_paths : List (String × List String)
  deriving DecidableEq

/-- The script's `SchemaDiff.has_changes` property. -/
def SchemaDiff.has_changes (d : SchemaDiff) : Bool :=
  !(d.added_paths.isEmpty && d.removed_paths.isEmpty && d.changed_paths.isEmpty)

/-- The script's `diff_schemas(old, new, paths_filter=...)`: added, removed
and changed paths between the two documents' `paths` sections, optionally
restricted to a path allowlist. -/
def diff_schemas (old new : J) (paths_filter : Option (List String)) : SchemaDiff :=
  let old_paths := objFieldsOf (jgetD old "paths" (J.obj []))
  let new_paths := objFieldsOf (jgetD new "paths" (J.obj []))
  let old_paths := match paths_filter with
    | some f => old_paths.filter (fun p => f.contains p.1)
    | none => old_paths
  let new_paths := match paths_filter with
    | some f => new_paths.filter (fun p => f.contains p.1)
    | none => new_paths
  let old_keys := keysOfList old_paths
  let new_keys := keysOfList new_paths
  let added := sorted_sdiff new_keys old_keys
  let removed := sorted_sdiff old_keys new_keys
  let changed :=
    (sorted_inter old_keys new_keys).foldl
      (fun acc path =>
        let diffs := diff_path_item (alGetD old_paths path J.null) (alGetD new_paths path J.null)
        if diffs.isEmpty then acc else acc ++ [(path, diffs)])
      []
  ⟨added, removed, changed⟩

/-- Specification-side resolver, following the spec's words: split the
pointer on `/` after the `#/` prefix and walk the root one component at a
time (expressed as a fold over the components). -/
def resolve_spec (ref : String) (root : J) : Option J :=
  if py_starts_with ref "#/" then
    (split_slash ⟨ref.data.drop 2⟩).foldl
      (fun cur part => cur.bind (fun c => jget c part)) (some root)
  else none

/-- Specification-side parameter descriptor for one key of the sorted
union: added when only the new side has the key, removed when only the old
side has it, changed when both have it and the parameter objects differ
under sorted-key deep structural equality. -/
def param_descriptor (tag : String) (old_params new_params : List (String × J))
    (key : String) : Option String :=
  match alGet old_params key, alGet new_params key with
  | none, _ => some (tag ++ " param added: " ++ key)
  | some _, none => some (tag ++ " param removed: " ++ key)
  | some o, some n =>
      if dumps_eq o n then none else some (tag ++ " param changed: " ++ key)

/-- Specification-side per-method descriptor list for `_diff_path_item`:
empty for excluded keys, an added/removed line for one-sided methods, the
operation diff for shared methods. -/
def method_descriptor (old new : J) (method : String) : List String :=
  if py_starts_with method "x-" || method == "parameters" then []
  else
    match jget old method, jget new method with
    | none, some _ => ["method added: " ++ py_upper method]
    | some _, none => ["method removed: " ++ py_upper method]
    | some o, some n => diff_operation method o n
    | none, none => []

/-- The key set of the `paths` section of an extraction result. -/
def extracted_path_keys (schema : J) (paths : List String) : List String :=
  keysOfList (objFieldsOf (jgetD (extract_paths schema paths) "paths" (J.obj [])))

/-- A reference string has the component-pointer shape: after `#/` it
splits into exactly `components/<category>/<name>` (two segments after the
`#/components/` prefix).  The hypotheses of the closure theorems quantify
this over the local references occurring in the document. -/
def component_shaped (r : String) : Bool :=
  match splitChar '/' (r.data.drop 2) with
  | [c, _, _] => c = "components".data
  | _ => false

/-- A reference string is a well-formed component pointer that moreover
resolves in `schema`. -/
def good_local_ref (schema : J) (r : String) : Bool :=
  component_shaped r && (resolve_ref r schema).isSome

/-! Order lemmas for the code point lexicographic string order. -/

theorem char_eq_of_toNat_eq {a b : Char} (h : a.toNat = b.toNat) : a = b := by
  simpa [Char.ext_iff, UInt32.ext_iff] using h

theorem strLt_irrefl : ∀ l, strLt l l = false
  | [] => rfl
  | _ :: as => by simp [strLt, strLt_irrefl as]

theorem strLt_asymm : ∀ a b, strLt a b = true → strLt b a = false
  | [], [] => by simp [strLt]
  | [], _ :: _ => by intro _; simp [strLt]
  | _ :: _, [] => by simp [strLt]
  | x :: xs, y :: ys => by
      intro h
      simp only [strLt] at h ⊢
      by_cases h1 : x.toNat < y.toNat
      · have h2 : ¬ y.toNat < x.toNat := by omega
        simp [h1, h2]
      · by_cases h2 : y.toNat < x.toNat
        · simp [h1, h2] at h
        · simp [h1, h2] at h ⊢
          exact strLt_asymm xs ys h

theorem strLt_trans : ∀ a b c, strLt a b = true → strLt b c = true → strLt a c = true
  | [], [], [] => by simp [strLt]
  | [], _ :: _, [] => by intro _ h2; simp [strLt] at h2
  | [], [], _ :: _ => by simp [strLt]
  | [], _ :: _, _ :: _ => by simp [strLt]
  | _ :: _, [], _ => by simp [strLt]
  | _ :: _, _ :: _, [] => by simp [strLt]
  | x :: xs, y :: ys, z :: zs => by
      intro h1 h2
      simp only [strLt] at h1 h2 ⊢
      by_cases hxy : x.toNat < y.toNat
      · by_cases hyz : y.toNat < z.toNat
        · have : x.toNat < z.toNat := by omega
          simp [this]
        · by_cases hzy : z.toNat < y.toNat
          · simp [hyz, hzy] at h2
          · have hyz' : y.toNat = z.toNat := by omega
            have : x.toNat < z.toNat := by omega
            simp [this]
      · by_cases hyx : y.toNat < x.toNat
        · simp [hxy, hyx] at h1
        · have hxy' : x.toNat = y.toNat := by omega
          by_cases hyz : y.toNat < z.toNat
          · have : x.toNat < z.toNat := by omega
            simp [this]
          · by_cases hzy : z.toNat < y.toNat
            · simp [hyz, hzy] at h2
            · have h3 : ¬ x.toNat < z.toNat := by omega
              have h4 : ¬ z.toNat < x.toNat := by omega
              simp [hxy, hyx] at h1
              simp [hyz, hzy] at h2
              simp [h3, h4]
              exact strLt_trans xs ys zs h1 h2

theorem strLt_total_eq : ∀ a b, strLt a b = false → strLt b a = false → a = b
  | [], [] => by intros; rfl
  | [], _ :: _ => by simp [strLt]
  | _ :: _, [] => by intro h1 h2; simp [strLt] at h2
  | x :: xs, y :: ys => by
      intro h1 h2
      simp only [strLt] at h1 h2
      by_cases hxy : x.toNat < y.toNat
      · simp [hxy] at h1
      · by_cases hyx : y.toNat < x.toNat
        · simp [hxy, hyx] at h2
        · simp [hxy, hyx] at h1 h2
          have hx : x = y := char_eq_of_toNat_eq (by omega)
          rw [hx, strLt_total_eq xs ys h1 h2]

theorem py_str_le_refl (s : String) : py_str_le s s = true := by
  simp [py_str_le, strLt_irrefl]

theorem py_str_le_total (s t : String) : py_str_le s t = true ∨ py_str_le t s = true := by
  simp only [py_str_le, Bool.not_eq_true']
  by_cases h : strLt t.data s.data = true
  · right
    simpa using strLt_asymm _ _ h
  · left
    simpa using h

theorem py_str_le_trans {s t u : String} (h1 : py_str_le s t = true)
    (h2 : py_str_le t u = true) : py_str_le s u = true := by
  simp only [py_str_le, Bool.not_eq_true'] at h1 h2 ⊢
  by_cases hus : strLt u.data s.data = true
  · by_cases hst : strLt s.data t.data = true
    · have := strLt_trans _ _ _ hus hst
      rw [this] at h2; cases h2
    · have : s.data = t.data := strLt_total_eq _ _ (by simpa using hst) h1
      rw [← this] at h2
      rw [hus] at h2; cases h2
  · simpa using hus

theorem py_str_le_antisymm {s t : String} (h1 : py_str_le s t = true)
    (h2 : py_str_le t s = true) : s = t := by
  simp only [py_str_le, Bool.not_eq_true'] at h1 h2
  have h3 : s.data = t.data := strLt_total_eq _ _ h2 h1
  exact congrArg String.mk h3

/-! Correctness of the insertion sort modelling Python `sorted`. -/

theorem insert_sorted_perm (x : String) :
    ∀ l, (insert_sorted x l).Perm (x :: l)
  | [] => List.Perm.refl _
  | y :: ys => by
      simp only [insert_sorted]
      by_cases h : py_str_le x y = true
      · simp [h]
      · simp only [h, if_false]
        exact ((insert_sorted_perm x ys).cons y).trans (List.Perm.swap x y ys)

theorem sort_strings_perm : ∀ l, (sort_strings l).Perm l
  | [] => List.Perm.refl _
  | x :: xs => by
      simp only [sort_strings, List.foldr]
      exact (insert_sorted_perm x _).trans ((sort_strings_perm xs).cons x)

theorem mem_sort_strings {x : String} {l : List String} :
    x ∈ sort_strings l ↔ x ∈ l := (sort_strings_perm l).mem_iff

theorem insert_sorted_pairwise {x : String} :
    ∀ {l}, List.Pairwise (fun a b => py_str_le a b = true) l →
      List.Pairwise (fun a b => py_str_le a b = true) (insert_sorted x l)
  | [], _ => by simp [insert_sorted]
  | y :: ys, h => by
      simp only [insert_sorted]
      rcases List.pairwise_cons.mp h with ⟨hy, hys⟩
      by_cases hxy : py_str_le x y = true
      · simp only [hxy, if_true]
        refine List.pairwise_cons.mpr ⟨?_, h⟩
        intro z hz
        rcases List.mem_cons.mp hz with rfl | hz
        · exact hxy
        · exact py_str_le_trans hxy (hy z hz)
      · simp only [hxy, if_false]
        refine List.pairwise_cons.mpr ⟨?_, insert_sorted_pairwise hys⟩
        intro z hz
        rcases List.mem_cons.mp ((insert_sorted_perm x ys).mem_iff.mp hz) with hzx | hz2
        · rw [hzx]
          rcases py_str_le_total x y with h' | h'
          · exact absurd h' hxy
          · exact h'
        · exact hy z hz2

theorem sort_strings_pairwise :
    ∀ l, List.Pairwise (fun a b => py_str_le a b = true) (sort_strings l)
  | [] => List.Pairwise.nil
  | x :: xs => by
      simp only [sort_strings, List.foldr]
      exact insert_sorted_pairwise (sort_strings_pairwise xs)

theorem sort_strings_eq_of_perm {l1 l2 : List String} (h : l1.Perm l2) :
    sort_strings l1 = sort_strings l2 := by
  haveI : IsAntisymm String (fun a b => py_str_le a b = true) :=
    ⟨fun _ _ h1 h2 => py_str_le_antisymm h1 h2⟩
  exact List.eq_of_perm_of_sorted
    ((sort_strings_perm l1).trans (h.trans (sort_strings_perm l2).symm))
    (sort_strings_pairwise l1) (sort_strings_pairwise l2)

theorem sort_strings_nodup {l : List String} (h : l.Nodup) :
    (sort_strings l).Nodup := (sort_strings_perm l).nodup_iff.mpr h

/-! Association list lemmas (Python dict semantics). -/

theorem alGet_alInsert_self : ∀ (fs : List (String × J)) (k : String) (v : J),
    alGet (alInsert fs k v) k = some v
  | [], k, v => by simp [alInsert, alGet]
  | (a, b) :: rest, k, v => by
      simp only [alInsert]
      by_cases h : a = k
      · simp [h, alGet]
      · simp [h, alGet, alGet_alInsert_self rest k v]

theorem alGet_alInsert_ne : ∀ (fs : List (String × J)) {k k' : String} (v : J),
    k' ≠ k → alGet (alInsert fs k v) k' = alGet fs k'
  | [], k, k', v => by intro h; simp [alInsert, alGet, Ne.symm h]
  | (a, b) :: rest, k, k', v => by
      intro h
      simp only [alInsert]
      by_cases ha : a = k
      · subst ha
        simp [alGet, Ne.symm h]
      · simp only [ha, if_false, alGet]
        by_cases ha' : a = k'
        · simp [ha']
        · simp [ha', alGet_alInsert_ne rest v h]

theorem alMem_eq_isSome : ∀ (fs : List (String × J)) (k : String),
    alMem fs k = (alGet fs k).isSome
  | [], k => rfl
  | (a, b) :: rest, k => by
      by_cases h : a = k
      · simp [alMem, alGet, h]
      · have hne : (a == k) = false := beq_eq_false_iff_ne.mpr h
        simp only [alMem, List.any_cons, alGet, hne, Bool.false_or, if_neg h]
        exact alMem_eq_isSome rest k

theorem alGet_mem : ∀ {fs : List (String × J)} {k : String} {v : J},
    alGet fs k = some v → (k, v) ∈ fs
  | [], k, v => by simp [alGet]
  | (a, b) :: rest, k, v => by
      simp only [alGet]
      by_cases h : a = k
      · subst h
        intro hv
        simp at hv
        simp [hv]
      · simp only [h, if_false]
        intro hv
        exact List.mem_cons_of_mem _ (alGet_mem hv)

theorem mem_alInsert : ∀ {fs : List (String × J)} {k : String} {v : J} {p : String × J},
    p ∈ alInsert fs k v → p = (k, v) ∨ p ∈ fs
  | [], k, v, p => by simp [alInsert]
  | (a, b) :: rest, k, v, p => by
      simp only [alInsert]
      by_cases h : a = k
      · simp only [h, if_true]
        intro hp
        rcases List.mem_cons.mp hp with hp | hp
        · exact Or.inl hp
        · exact Or.inr (List.mem_cons_of_mem _ hp)
      · simp only [h, if_false]
        intro hp
        rcases List.mem_cons.mp hp with hp | hp
        · exact Or.inr (List.mem_cons.mpr (Or.inl hp))
        · rcases mem_alInsert hp with hp' | hp'
          · exact Or.inl hp'
          · exact Or.inr (List.mem_cons_of_mem _ hp')

theorem alGet_eq_none_iff : ∀ (fs : List (String × J)) (k : String),
    alGet fs k = none ↔ k ∉ keysOfList fs
  | [], k => by simp [alGet, keysOfList]
  | (a, b) :: rest, k => by
      have hk : keysOfList ((a, b) :: rest) = a :: keysOfList rest := rfl
      rw [hk]
      by_cases h : a = k
      · subst h
        simp [alGet]
      · simp only [alGet, h, if_false, List.mem_cons, not_or]
        rw [alGet_eq_none_iff rest k]
        constructor
        · intro hn
          exact ⟨fun e => h e.symm, hn⟩
        · intro hn
          exact hn.2

theorem keysOfList_alInsert {fs : List (String × J)} {k k' : String} {v : J} :
    k' ∈ keysOfList (alInsert fs k v) ↔ k' = k ∨ k' ∈ keysOfList fs := by
  induction fs with
  | nil => simp [alInsert, keysOfList, eq_comm]
  | cons p rest ih =>
      obtain ⟨a, b⟩ := p
      simp only [alInsert]
      by_cases h : a = k
      · subst h
        simp only [keysOfList, List.map, List.mem_cons]
        constructor
        · rintro (h' | h')
          · exact Or.inl h'
          · exact Or.inr (Or.inr h')
        · rintro (h' | h' | h')
          · exact Or.inl h'
          · exact Or.inl h'
          · exact Or.inr h'
      · simp only [h, if_false, keysOfList, List.map, List.mem_cons] at *
        rw [show (alInsert rest k v).map Prod.fst = keysOfList (alInsert rest k v) from rfl] at *
        rw [show rest.map Prod.fst = keysOfList rest from rfl]
        constructor
        · rintro (h' | h')
          · exact Or.inr (Or.inl h')
          · rcases ih.mp h' with h'' | h''
            · exact Or.inl h''
            · exact Or.inr (Or.inr h'')
        · rintro (h' | h' | h')
          · exact Or.inr (ih.mpr (Or.inl h'))
          · exact Or.inl h'
          · exact Or.inr (ih.mpr (Or.inr h'))

/-! Lemmas on `addRef` (Python `set.add` for the discovery-order list). -/

theorem contains_iff_mem {l : List String} {x : String} : l.contains x = true ↔ x ∈ l := by
  simp [List.contains_iff_exists_mem_beq]

theorem addRef_grows (refs : List String) (r : String) : refs <+: addRef refs r := by
  unfold addRef
  split
  · exact List.prefix_refl _
  · exact List.prefix_append _ _

theorem mem_addRef {refs : List String} {r x : String} :
    x ∈ addRef refs r ↔ x ∈ refs ∨ x = r := by
  unfold addRef
  split
  · rename_i h
    rw [contains_iff_mem] at h
    constructor
    · exact Or.inl
    · rintro (hx | rfl)
      · exact hx
      · exact h
  · simp

theorem addRef_nodup {refs : List String} {r : String} (h : refs.Nodup) :
    (addRef refs r).Nodup := by
  unfold addRef
  split
  · exact h
  · rename_i hc
    have hr : r ∉ refs := fun hmem => hc (contains_iff_mem.mpr hmem)
    simp [List.nodup_append, h, hr]

/-! The accumulator-threading `_collect_refs` agrees with the pure
reference set `refsOf`. -/

mutual

theorem collect_refs_grows : ∀ (refs : List String) (v : J), refs <+: collect_refs refs v
  | refs, .null => List.prefix_refl _
  | refs, .jb _ => List.prefix_refl _
  | refs, .ji _ => List.prefix_refl _
  | refs, .js _ => List.prefix_refl _
  | refs, .arr xs => collect_refs_list_grows refs xs
  | refs, .obj fs => by
      show refs <+: collect_refs_fields _ fs
      cases h : alGet fs "$ref" with
      | none =>
          simpa [collect_refs, h] using collect_refs_fields_grows refs fs
      | some v =>
          cases v with
          | js r => exact (addRef_grows refs r).trans (collect_refs_fields_grows _ fs)
          | null => exact collect_refs_fields_grows refs fs
          | jb _ => exact collect_refs_fields_grows refs fs
          | ji _ => exact collect_refs_fields_grows refs fs
          | arr _ => exact collect_refs_fields_grows refs fs
          | obj _ => exact collect_refs_fields_grows refs fs

theorem collect_refs_list_grows : ∀ (refs : List String) (xs : List J),
    refs <+: collect_refs_list refs xs
  | refs, [] => List.prefix_refl _
  | refs, x :: xs =>
      (collect_refs_grows refs x).trans (collect_refs_list_grows _ xs)

theorem collect_refs_fields_grows : ∀ (refs : List String) (fs : List (String × J)),
    refs <+: collect_refs_fields refs fs
  | refs, [] => List.prefix_refl _
  | refs, (_, v) :: fs =>
      (collect_refs_grows refs v).trans (collect_refs_fields_grows _ fs)

end

mutual

theorem mem_collect_refs : ∀ (refs : List String) (v : J) (x : String),
    x ∈ collect_refs refs v ↔ x ∈ refs ∨ x ∈ refsOf v
  | refs, .null, x => by simp [collect_refs, refsOf]
  | refs, .jb _, x => by simp [collect_refs, refsOf]
  | refs, .ji _, x => by simp [collect_refs, refsOf]
  | refs, .js _, x => by simp [collect_refs, refsOf]
  | refs, .arr xs, x => by
      simpa [collect_refs, refsOf] using mem_collect_refs_list refs xs x
  | refs, .obj fs, x => by
      cases h : alGet fs "$ref" with
      | none =>
          simp [collect_refs, refsOf, h, mem_collect_refs_fields refs fs x]
      | some v =>
          cases v with
          | js r =>
              simp only [collect_refs, refsOf, h,
                mem_collect_refs_fields _ fs x, mem_addRef, Finset.mem_union,
                Finset.mem_singleton]
              tauto
          | null => simp [collect_refs, refsOf, h, mem_collect_refs_fields refs fs x]
          | jb _ => simp [collect_refs, refsOf, h, mem_collect_refs_fields refs fs x]
          | ji _ => simp [collect_refs, refsOf, h, mem_collect_refs_fields refs fs x]
          | arr _ => simp [collect_refs, refsOf, h, mem_collect_refs_fields refs fs x]
          | obj _ => simp [collect_refs, refsOf, h, mem_collect_refs_fields refs fs x]

theorem mem_collect_refs_list : ∀ (refs : List String) (xs : List J) (x : String),
    x ∈ collect_refs_list refs xs ↔ x ∈ refs ∨ x ∈ refsOfList xs
  | refs, [], x => by simp [collect_refs_list, refsOfList]
  | refs, y :: ys, x => by
      simp only [collect_refs_list, refsOfList,
        mem_collect_refs_list _ ys x, mem_collect_refs refs y x,
        Finset.mem_union]
      tauto

theorem mem_collect_refs_fields : ∀ (refs : List String) (fs : List (String × J)) (x : String),
    x ∈ collect_refs_fields refs fs ↔ x ∈ refs ∨ x ∈ refsOfFields fs
  | refs, [], x => by simp [collect_refs_fields, refsOfFields]
  | refs, (_, v) :: fs, x => by
      simp only [collect_refs_fields, refsOfFields,
        mem_collect_refs_fields _ fs x, mem_collect_refs refs v x,
        Finset.mem_union]
      tauto

end

mutual

theorem collect_refs_nodup : ∀ (refs : List String) (v : J),
    refs.Nodup → (collect_refs refs v).Nodup
  | refs, .null, h => h
  | refs, .jb _, h => h
  | refs, .ji _, h => h
  | refs, .js _, h => h
  | refs, .arr xs, h => collect_refs_list_nodup refs xs h
  | refs, .obj fs, h => by
      show (collect_refs_fields _ fs).Nodup
      cases hg : alGet fs "$ref" with
      | none => exact collect_refs_fields_nodup refs fs h
      | some v =>
          cases v with
          | js r => exact collect_refs_fields_nodup _ fs (addRef_nodup h)
          | null => exact collect_refs_fields_nodup refs fs h
          | jb _ => exact collect_refs_fields_nodup refs fs h
          | ji _ => exact collect_refs_fields_nodup refs fs h
          | arr _ => exact collect_refs_fields_nodup refs fs h
          | obj _ => exact collect_refs_fields_nodup refs fs h

theorem collect_refs_list_nodup : ∀ (refs : List String) (xs : List J),
    refs.Nodup → (collect_refs_list refs xs).Nodup
  | _, [], h => h
  | refs, x :: xs, h =>
      collect_refs_list_nodup _ xs (collect_refs_nodup refs x h)

theorem collect_refs_fields_nodup : ∀ (refs : List String) (fs : List (String × J)),
    refs.Nodup → (collect_refs_fields refs fs).Nodup
  | _, [], h => h
  | refs, (_, v) :: fs, h =>
      collect_refs_fields_nodup _ fs (collect_refs_nodup refs v h)

end

/-! Reference sets of subvalues. -/

theorem refsOfFields_cons (a : String) (b : J) (fs : List (String × J)) :
    refsOfFields ((a, b) :: fs) = refsOf b ∪ refsOfFields fs := by
  simp [refsOfFields]

theorem refsOf_of_mem_fields : ∀ {fs : List (String × J)} {k : String} {v : J},
    (k, v) ∈ fs → refsOf v ⊆ refsOfFields fs
  | [], k, v => by simp
  | (a, b) :: fs, k, v => by
      intro h
      rw [refsOfFields_cons]
      rcases List.mem_cons.mp h with h | h
      · injection h with h1 h2
        subst h2
        exact Finset.subset_union_left
      · exact (refsOf_of_mem_fields h).trans Finset.subset_union_right

theorem refsOf_of_alGet {fs : List (String × J)} {k : String} {v : J}
    (h : alGet fs k = some v) : refsOf v ⊆ refsOf (J.obj fs) := by
  refine (refsOf_of_mem_fields (alGet_mem h)).trans ?_
  show refsOfFields fs ⊆ refsOf (J.obj fs)
  simp only [refsOf]
  exact Finset.subset_union_right

theorem refsOf_of_jget {o : J} {k : String} {v : J}
    (h : jget o k = some v) : refsOf v ⊆ refsOf o := by
  cases o <;> simp [jget] at h
  exact refsOf_of_alGet h

theorem refsOf_jgetD (o : J) (k : String) (d : J) :
    refsOf (jgetD o k d) ⊆ refsOf o ∪ refsOf d := by
  unfold jgetD
  cases h : jget o k with
  | none => simp
  | some v =>
      simpa using (refsOf_of_jget h).trans Finset.subset_union_left

/-! Lemmas on the Python `str.split` model. -/

theorem splitChar_shape (c : Char) : ∀ l, ∃ h t, splitChar c l = h :: t
  | [] => ⟨[], [], rfl⟩
  | x :: xs => by
      rcases splitChar_shape c xs with ⟨h, t, heq⟩
      simp only [splitChar, heq]
      by_cases hx : x = c
      · exact ⟨[], h :: t, by simp [hx]⟩
      · exact ⟨x :: h, t, by simp [hx]⟩

theorem splitChar_of_not_mem {c : Char} : ∀ {l}, c ∉ l → splitChar c l = [l]
  | [], _ => rfl
  | x :: xs, h => by
      have hx : ¬ x = c := fun e => h (e ▸ List.mem_cons_self x xs)
      have hxs : c ∉ xs := fun e => h (List.mem_cons_of_mem _ e)
      simp [splitChar, splitChar_of_not_mem hxs, hx]

theorem not_mem_of_mem_splitChar {c : Char} :
    ∀ {l p}, p ∈ splitChar c l → c ∉ p
  | [], p, hp => by
      simp only [splitChar, List.mem_singleton] at hp
      subst hp
      simp
  | x :: xs, p, hp => by
      rcases splitChar_shape c xs with ⟨h, t, heq⟩
      simp only [splitChar, heq] at hp
      by_cases hx : x = c
      · simp only [hx, if_true, List.mem_cons] at hp
        rcases hp with rfl | hp
        · simp
        · exact not_mem_of_mem_splitChar (by rw [heq]; exact List.mem_cons.mpr hp)
      · simp only [hx, if_false, List.mem_cons] at hp
        rcases hp with rfl | hp
        · intro hmem
          rcases List.mem_cons.mp hmem with rfl | hmem
          · exact hx rfl
          · have hh : h ∈ splitChar c xs := by rw [heq]; exact List.mem_cons_self h t
            exact not_mem_of_mem_splitChar hh hmem
        · exact not_mem_of_mem_splitChar (by rw [heq]; exact List.mem_cons_of_mem h hp)

theorem splitChar_eq_cons {c : Char} :
    ∀ {l p ps}, splitChar c l = p :: ps →
      (ps = [] ∧ l = p) ∨ ∃ rest, l = p ++ c :: rest ∧ splitChar c rest = ps
  | [], p, ps, h => by
      simp only [splitChar] at h
      injection h with h1 h2
      exact Or.inl ⟨h2.symm, h1⟩
  | x :: xs, p, ps, h => by
      rcases splitChar_shape c xs with ⟨h0, t0, heq⟩
      simp only [splitChar, heq] at h
      by_cases hx : x = c
      · simp only [hx, if_true] at h
        injection h with h1 h2
        subst hx
        exact Or.inr ⟨xs, by simp [← h1], h2 ▸ heq⟩
      · simp only [hx, if_false] at h
        injection h with h1 h2
        rcases splitChar_eq_cons (l := xs) (heq.trans (by rw [h2])) with ⟨hps, hl⟩ | ⟨rest, hl, hs⟩
        · exact Or.inl ⟨hps, by rw [← h1, ← hl]⟩
        · exact Or.inr ⟨rest, by rw [← h1, hl]; rfl, hs⟩

/-! Lemmas on `_resolve_ref`. -/

theorem walk_pointer_refsOf : ∀ (parts : List String) (cur o : J),
    walk_pointer cur parts = some o → refsOf o ⊆ refsOf cur
  | [], cur, o => by
      simp only [walk_pointer, Option.some_inj]
      rintro rfl
      exact Finset.Subset.refl _
  | part :: rest, cur, o => by
      simp only [walk_pointer]
      cases h : jget cur part with
      | none => simp
      | some v =>
          intro hw
          exact (walk_pointer_refsOf rest v o hw).trans (refsOf_of_jget h)

theorem resolve_ref_refsOf {r : String} {schema o : J}
    (h : resolve_ref r schema = some o) : refsOf o ⊆ refsOf schema := by
  unfold resolve_ref at h
  split at h
  · exact walk_pointer_refsOf _ _ _ h
  · cases h

/-! Lemmas on one iteration (`refs_pass`) of the fixed-point loop. -/

theorem foldl_grows_invariant {α : Type} (f : List String → α → List String)
    (hf : ∀ acc x, acc <+: f acc x) :
    ∀ (l : List α) (acc : List String), acc <+: List.foldl f acc l
  | [], acc => List.prefix_refl _
  | x :: l, acc => (hf acc x).trans (foldl_grows_invariant f hf l (f acc x))

theorem refs_pass_grows (schema : J) (needed : List String) :
    needed <+: refs_pass schema needed := by
  apply foldl_grows_invariant
  intro acc ref
  cases h : resolve_ref ref schema with
  | none => simp [h]
  | some o => simpa [h] using collect_refs_grows acc o

theorem mem_refs_pass_aux (schema : J) (x : String) :
    ∀ (l acc : List String),
      (x ∈ List.foldl
          (fun acc ref =>
            match resolve_ref ref schema with
            | some obj => collect_refs acc obj
            | none => acc)
          acc l) ↔
        x ∈ acc ∨ ∃ r ∈ l, ∃ o, resolve_ref r schema = some o ∧ x ∈ refsOf o
  | [], acc => by simp
  | r :: l, acc => by
      rw [List.foldl_cons, mem_refs_pass_aux schema x l]
      cases h : resolve_ref r schema with
      | none => simp [h]
      | some o =>
          simp only [h, mem_collect_refs, List.mem_cons]
          constructor
          · rintro ((hx | hx) | hx)
            · exact Or.inl hx
            · exact Or.inr ⟨r, Or.inl rfl, o, h, hx⟩
            · rcases hx with ⟨r', hr', o', ho', hx⟩
              exact Or.inr ⟨r', Or.inr hr', o', ho', hx⟩
          · rintro (hx | ⟨r', hr' | hr', o', ho', hx⟩)
            · exact Or.inl (Or.inl hx)
            · subst hr'
              rw [h] at ho'
              injection ho' with ho'
              subst ho'
              exact Or.inl (Or.inr hx)
            · exact Or.inr ⟨r', hr', o', ho', hx⟩

theorem mem_refs_pass {schema : J} {needed : List String} {x : String} :
    x ∈ refs_pass schema needed ↔
      x ∈ needed ∨ ∃ r ∈ needed, ∃ o, resolve_ref r schema = some o ∧ x ∈ refsOf o :=
  mem_refs_pass_aux schema x needed needed

theorem refs_pass_subset {schema : J} {needed : List String} {x : String}
    (h : x ∈ refs_pass schema needed) : x ∈ needed ∨ x ∈ refsOf schema := by
  rcases mem_refs_pass.mp h with hx | ⟨r, _, o, ho, hx⟩
  · exact Or.inl hx
  · exact Or.inr (resolve_ref_refsOf ho hx)

theorem refs_pass_nodup_aux (schema : J) :
    ∀ (l acc : List String), acc.Nodup →
      (List.foldl
        (fun acc ref =>
          match resolve_ref ref schema with
          | some obj => collect_refs acc obj
          | none => acc)
        acc l).Nodup
  | [], _, h => h
  | r :: l, acc, h => by
      rw [List.foldl_cons]
      apply refs_pass_nodup_aux schema l
      cases hr : resolve_ref r schema with
      | none => simpa [hr] using h
      | some o => simpa [hr] using collect_refs_nodup _ o h

theorem refs_pass_nodup {schema : J} {needed : List String}
    (h : needed.Nodup) : (refs_pass schema needed).Nodup :=
  refs_pass_nodup_aux schema needed needed h

theorem refs_pass_eq_of_length {schema : J} {needed : List String}
    (h : (refs_pass schema needed).length = needed.length) :
    refs_pass schema needed = needed :=
  ((refs_pass_grows schema needed).eq_of_length h.symm).symm

/-! Lemmas on the fixed-point loop (`refs_loop`). -/

theorem refs_loop_grows (schema : J) :
    ∀ (n : Nat) (needed : List String), needed <+: refs_loop schema n needed
  | 0, needed => List.prefix_refl _
  | n + 1, needed => by
      simp only [refs_loop]
      by_cases h : (refs_pass schema needed).length = needed.length
      · simpa [h] using refs_pass_grows schema needed
      · simp only [h, if_false]
        exact (refs_pass_grows schema needed).trans (refs_loop_grows schema n _)

theorem refs_loop_subset (schema : J) :
    ∀ (n : Nat) (needed : List String) (x : String),
      x ∈ refs_loop schema n needed → x ∈ needed ∨ x ∈ refsOf schema
  | 0, needed, x => fun h => Or.inl h
  | n + 1, needed, x => by
      simp only [refs_loop]
      by_cases h : (refs_pass schema needed).length = needed.length
      · simp only [h, if_true]
        exact refs_pass_subset
      · simp only [h, if_false]
        intro hx
        rcases refs_loop_subset schema n _ x hx with hx' | hx'
        · exact refs_pass_subset hx'
        · exact Or.inr hx'

theorem refs_loop_nodup (schema : J) :
    ∀ (n : Nat) {needed : List String}, needed.Nodup → (refs_loop schema n needed).Nodup
  | 0, _, h => h
  | n + 1, needed, h => by
      simp only [refs_loop]
      by_cases hl : (refs_pass schema needed).length = needed.length
      · simpa [hl] using refs_pass_nodup h
      · simp only [hl, if_false]
        exact refs_loop_nodup schema n (refs_pass_nodup h)

theorem refs_loop_fix (schema : J) (U : Finset String) (hU : refsOf schema ⊆ U) :
    ∀ (n : Nat) (needed : List String), needed.Nodup → (∀ x ∈ needed, x ∈ U) →
      U.card < n + needed.length →
      refs_pass schema (refs_loop schema n needed) = refs_loop schema n needed := by
  intro n
  induction n with
  | zero =>
      intro needed hnd hsub hcard
      exfalso
      have h1 : needed.toFinset.card = needed.length := List.toFinset_card_of_nodup hnd
      have h2 : needed.toFinset ⊆ U := fun x hx => hsub x (List.mem_toFinset.mp hx)
      have h3 : needed.toFinset.card ≤ U.card := Finset.card_le_card h2
      omega
  | succ n ih =>
      intro needed hnd hsub hcard
      simp only [refs_loop]
      by_cases hl : (refs_pass schema needed).length = needed.length
      · simp only [hl, if_true]
        have he := refs_pass_eq_of_length hl
        rw [he]
        exact he
      · simp only [hl, if_false]
        apply ih
        · exact refs_pass_nodup hnd
        · intro x hx
          rcases refs_pass_subset hx with hx' | hx'
          · exact hsub x hx'
          · exact hU hx'
        · have hle : needed.length ≤ (refs_pass schema needed).length :=
            (refs_pass_grows schema needed).length_le
          omega

theorem collect_refs_toFinset (v : J) :
    (collect_refs [] v).toFinset = refsOf v := by
  apply Finset.ext
  intro x
  simp [List.mem_toFinset, mem_collect_refs]

theorem refsOf_card_le (v : J) : (refsOf v).card ≤ (collect_refs [] v).length := by
  rw [← collect_refs_toFinset]
  exact List.toFinset_card_le _

theorem needed_refs_fix (schema kept : J) :
    refs_pass schema (needed_refs schema kept) = needed_refs schema kept := by
  unfold needed_refs
  apply refs_loop_fix schema ((collect_refs [] kept).toFinset ∪ refsOf schema)
    Finset.subset_union_right
  · exact collect_refs_nodup [] kept List.nodup_nil
  · intro x hx
    exact Finset.mem_union_left _ (List.mem_toFinset.mpr hx)
  · have h1 := Finset.card_union_le (collect_refs [] kept).toFinset (refsOf schema)
    have h2 : (collect_refs [] kept).toFinset.card ≤ (collect_refs [] kept).length :=
      List.toFinset_card_le _
    have h3 := refsOf_card_le schema
    omega

theorem needed_refs_closed {schema kept : J} {r : String} {o : J}
    (hr : r ∈ needed_refs schema kept) (ho : resolve_ref r schema = some o) :
    ∀ x ∈ refsOf o, x ∈ needed_refs schema kept := by
  intro x hx
  have : x ∈ refs_pass schema (needed_refs schema kept) :=
    mem_refs_pass.mpr (Or.inr ⟨r, hr, o, ho, hx⟩)
  rwa [needed_refs_fix schema kept] at this

theorem needed_refs_init {schema kept : J} {x : String}
    (hx : x ∈ collect_refs [] kept) : x ∈ needed_refs schema kept := by
  unfold needed_refs
  exact (refs_loop_grows schema _ _).subset hx

theorem needed_refs_subset {schema kept : J} {x : String}
    (hx : x ∈ needed_refs schema kept) : x ∈ refsOf kept ∨ x ∈ refsOf schema := by
  unfold needed_refs at hx
  rcases refs_loop_subset schema _ _ x hx with h | h
  · exact Or.inl ((mem_collect_refs [] kept x).mp h |>.resolve_left (by simp))
  · exact Or.inr h

theorem refs_pass_fix_stable {schema : J} {needed : List String}
    (h : refs_pass schema needed = needed) :
    ∀ m, refs_loop schema m needed = needed
  | 0 => rfl
  | m + 1 => by simp [refs_loop, h]

theorem refs_loop_fuel_mono (schema : J) :
    ∀ (n m : Nat) (needed : List String),
      refs_pass schema (refs_loop schema n needed) = refs_loop schema n needed →
      refs_loop schema (n + m) needed = refs_loop schema n needed := by
  intro n
  induction n with
  | zero =>
      intro m needed h
      simpa using refs_pass_fix_stable h m
  | succ n ih =>
      intro m needed h
      rw [show n + 1 + m = n + m + 1 from by omega]
      by_cases hl : (refs_pass schema needed).length = needed.length
      · simp only [refs_loop, hl, if_true]
      · simp only [refs_loop, hl, if_false] at h ⊢
        exact ih m _ h

theorem refs_loop_agree (S T : J) (M : List String)
    (hag : ∀ s : List String, (∀ x ∈ s, x ∈ M) → refs_pass S s = refs_pass T s) :
    ∀ (f : Nat) (init : List String),
      (∀ x ∈ refs_loop S f init, x ∈ M) →
      refs_loop S f init = refs_loop T f init := by
  intro f
  induction f with
  | zero => intro init _; rfl
  | succ f ih =>
      intro init h
      have hinit : ∀ x ∈ init, x ∈ M := fun x hx =>
        h x ((refs_loop_grows S (f + 1) init).subset hx)
      have hnext : refs_pass S init = refs_pass T init := hag init hinit
      simp only [refs_loop, ← hnext]
      by_cases hl : (refs_pass S init).length = init.length
      · simp [hl]
      · simp only [hl, if_false]
        apply ih
        intro x hx
        apply h
        simp only [refs_loop, hl, if_false]
        exact hx

/-! Lemmas on the paths-filtering loop of `extract_paths`. -/

theorem kept_paths_fold_alGet (all : J) :
    ∀ (P : List String) (acc : List (String × J)) (k : String),
      alGet (List.foldl
        (fun acc pattern =>
          match jget all pattern with
          | some v => alInsert acc pattern v
          | none => acc)
        acc P) k =
      if k ∈ P ∧ (jget all k).isSome then jget all k else alGet acc k
  | [], acc, k => by simp
  | p :: P, acc, k => by
      rw [List.foldl_cons, kept_paths_fold_alGet all P]
      by_cases hP : k ∈ P ∧ (jget all k).isSome
      · rw [if_pos hP, if_pos ⟨List.mem_cons_of_mem _ hP.1, hP.2⟩]
      · rw [if_neg hP]
        by_cases hk : k = p
        · subst hk
          cases hv : jget all k with
          | none => simp [hv]
          | some v =>
              simp only [hv, alGet_alInsert_self]
              rw [if_pos ⟨List.mem_cons_self _ _, by simp [hv]⟩]
        · have hcons : (k ∈ p :: P ∧ (jget all k).isSome) ↔ (k ∈ P ∧ (jget all k).isSome) := by
            constructor
            · rintro ⟨hm, hs⟩
              rcases List.mem_cons.mp hm with h' | h'
              · exact absurd h' hk
              · exact ⟨h', hs⟩
            · rintro ⟨hm, hs⟩
              exact ⟨List.mem_cons_of_mem _ hm, hs⟩
          rw [if_neg (fun hc => hP (hcons.mp hc))]
          cases hv : jget all p with
          | none => rfl
          | some v => exact alGet_alInsert_ne acc v hk

theorem alGet_kept_paths (all : J) (P : List String) (k : String) :
    alGet (kept_paths all P) k =
      if k ∈ P ∧ (jget all k).isSome then jget all k else none := by
  unfold kept_paths
  rw [kept_paths_fold_alGet all P [] k]
  rfl

theorem mem_kept_paths_fold (all : J) :
    ∀ (P : List String) (acc : List (String × J)) (q : String × J),
      q ∈ List.foldl
        (fun acc pattern =>
          match jget all pattern with
          | some v => alInsert acc pattern v
          | none => acc)
        acc P →
      q ∈ acc ∨ jget all q.1 = some q.2
  | [], acc, q => fun h => Or.inl h
  | p :: P, acc, q => by
      rw [List.foldl_cons]
      intro h
      rcases mem_kept_paths_fold all P _ q h with h' | h'
      · cases hv : jget all p with
        | none => rw [hv] at h'; exact Or.inl h'
        | some v =>
            rw [hv] at h'
            rcases mem_alInsert h' with h'' | h''
            · subst h''
              exact Or.inr hv
            · exact Or.inl h''
      · exact Or.inr h'

theorem mem_kept_paths {all : J} {P : List String} {q : String × J}
    (h : q ∈ kept_paths all P) : jget all q.1 = some q.2 := by
  rcases mem_kept_paths_fold all P [] q h with h' | h'
  · cases h'
  · exact h'

theorem refsOf_obj (fs : List (String × J)) :
    refsOf (J.obj fs) =
      (match alGet fs "$ref" with
       | some (.js r) => {r}
       | _ => ∅) ∪ refsOfFields fs := by
  simp [refsOf]

theorem refsOfFields_nil : refsOfFields [] = ∅ := by simp [refsOfFields]

theorem refsOfFields_subset_of_forall :
    ∀ {fs : List (String × J)} {X : Finset String},
      (∀ q ∈ fs, refsOf q.2 ⊆ X) → refsOfFields fs ⊆ X
  | [], X => by
      intro _
      rw [refsOfFields_nil]
      exact Finset.empty_subset X
  | (a, b) :: fs, X => by
      intro h
      rw [refsOfFields_cons]
      apply Finset.union_subset
      · exact h (a, b) (List.mem_cons_self _ _)
      · exact refsOfFields_subset_of_forall (fun q hq => h q (List.mem_cons_of_mem _ hq))

theorem refsOf_kept_paths (all : J) (P : List String) :
    refsOf (J.obj (kept_paths all P)) ⊆ refsOf all := by
  rw [refsOf_obj]
  apply Finset.union_subset
  · cases hg : alGet (kept_paths all P) "$ref" with
    | none => simp
    | some v =>
        cases v with
        | js r =>
            have hall : jget all "$ref" = some (J.js r) := by
              rw [alGet_kept_paths] at hg
              split at hg
              · exact hg
              · cases hg
            cases all with
            | obj afs =>
                simp only [jget] at hall
                intro x hx
                rw [Finset.mem_singleton] at hx
                subst hx
                rw [refsOf_obj, hall]
                exact Finset.mem_union_left _ (Finset.mem_singleton_self _)
            | null => simp [jget] at hall
            | jb _ => simp [jget] at hall
            | ji _ => simp [jget] at hall
            | js _ => simp [jget] at hall
            | arr _ => simp [jget] at hall
        | null => simp
        | jb _ => simp
        | ji _ => simp
        | arr _ => simp
        | obj _ => simp
  · apply refsOfFields_subset_of_forall
    intro q hq
    exact refsOf_of_jget (mem_kept_paths hq)

/-! Structure of the assembled extraction result. -/

theorem extract_paths_jget_paths (S : J) (P : List String) :
    jget (extract_paths S P) "paths" =
      some (J.obj (kept_paths (jgetD S "paths" (J.obj [])) P)) := by
  simp only [extract_paths]
  split
  · simp [jget, alGet]
  · simp [jget, alGet]

theorem extract_paths_jget_openapi (S : J) (P : List String) :
    jget (extract_paths S P) "openapi" = some (jgetD S "openapi" (J.js "3.0.0")) := by
  simp only [extract_paths]
  split
  · simp [jget, alGet]
  · simp [jget, alGet]

theorem extract_paths_jget_info (S : J) (P : List String) :
    jget (extract_paths S P) "info" = some (jgetD S "info" (J.obj [])) := by
  simp only [extract_paths]
  split
  · simp [jget, alGet]
  · simp [jget, alGet]

theorem extract_paths_jget_components (S : J) (P : List String) :
    jget (extract_paths S P) "components" =
      if (prune_components (jgetD S "components" (J.obj []))
            (needed_refs S (J.obj (kept_paths (jgetD S "paths" (J.obj [])) P)))).isEmpty
      then none
      else some (J.obj (prune_components (jgetD S "components" (J.obj []))
            (needed_refs S (J.obj (kept_paths (jgetD S "paths" (J.obj [])) P))))) := by
  simp only [extract_paths]
  split
  · rename_i h
    simp [h, jget, alGet]
  · rename_i h
    simp [h, jget, alGet]

theorem mem_extracted_path_keys (S : J) (P : List String) (k : String) :
    k ∈ extracted_path_keys S P ↔
      k ∈ P ∧ (jget (jgetD S "paths" (J.obj [])) k).isSome := by
  unfold extracted_path_keys
  rw [show jgetD (extract_paths S P) "paths" (J.obj []) =
        J.obj (kept_paths (jgetD S "paths" (J.obj [])) P) from by
      rw [jgetD, extract_paths_jget_paths]; rfl]
  rw [show objFieldsOf (J.obj (kept_paths (jgetD S "paths" (J.obj [])) P)) =
        kept_paths (jgetD S "paths" (J.obj [])) P from rfl]
  constructor
  · intro hk
    by_contra hc
    have hnone : alGet (kept_paths (jgetD S "paths" (J.obj [])) P) k = none := by
      rw [alGet_kept_paths, if_neg hc]
    exact (alGet_eq_none_iff _ k).mp hnone hk
  · intro hk
    by_contra hc
    have hnone : alGet (kept_paths (jgetD S "paths" (J.obj [])) P) k = none :=
      (alGet_eq_none_iff _ k).mpr hc
    rw [alGet_kept_paths, if_pos hk] at hnone
    exact absurd hk.2 (by rw [hnone]; simp)

/-! Generic fold invariants. -/

theorem foldl_preserve {α β : Type} (f : β → α → β) (P : β → Prop)
    (pres : ∀ acc y, P acc → P (f acc y)) :
    ∀ (l : List α) (acc : β), P acc → P (List.foldl f acc l)
  | [], _, h => h
  | y :: l, acc, h => foldl_preserve f P pres l (f acc y) (pres acc y h)

theorem foldl_established {α β : Type} (f : β → α → β) (P : β → Prop) {x : α}
    (pres : ∀ acc y, P acc → P (f acc y)) (est : ∀ acc, P (f acc x)) :
    ∀ (l : List α) (acc : β), x ∈ l → P (List.foldl f acc l)
  | [], _, hx => absurd hx (List.not_mem_nil x)
  | y :: l, acc, hx => by
      rw [List.foldl_cons]
      rcases List.mem_cons.mp hx with rfl | hx'
      · exact foldl_preserve f P pres l (f acc x) (est acc)
      · exact foldl_established f P pres est l (f acc y) hx'

theorem foldl_congr_mem {α β : Type} {f g : β → α → β} :
    ∀ {l : List α} {acc : β}, (∀ acc' y, y ∈ l → f acc' y = g acc' y) →
      List.foldl f acc l = List.foldl g acc l
  | [], acc, _ => rfl
  | y :: l, acc, h => by
      rw [List.foldl_cons, List.foldl_cons, h acc y (List.mem_cons_self _ _)]
      exact foldl_congr_mem (fun acc' z hz => h acc' z (List.mem_cons_of_mem _ hz))

/-! Lemmas on `_prune_components`. -/

theorem pruned_add_self (pruned : List (String × J)) (c n : String) (v : J) :
    ∃ g, alGet (pruned_add pruned c n v) c = some (J.obj g) ∧ alGet g n = some v := by
  unfold pruned_add
  exact ⟨_, alGet_alInsert_self _ _ _, alGet_alInsert_self _ _ _⟩

theorem pruned_add_preserves {pruned : List (String × J)} {c n : String} {v' : J}
    {cat nm : String} {v : J}
    (h : ∃ g, alGet pruned cat = some (J.obj g) ∧ alGet g nm = some v)
    (hv : c = cat → n = nm → v' = v) :
    ∃ g, alGet (pruned_add pruned c n v') cat = some (J.obj g) ∧
         alGet g nm = some v := by
  rcases h with ⟨g, hcat, hnm⟩
  unfold pruned_add
  by_cases hc : c = cat
  · subst hc
    rw [hcat]
    by_cases hn : n = nm
    · subst hn
      rw [hv rfl rfl]
      exact ⟨_, alGet_alInsert_self _ _ _, alGet_alInsert_self _ _ _⟩
    · refine ⟨_, alGet_alInsert_self _ _ _, ?_⟩
      rw [alGet_alInsert_ne _ _ (Ne.symm hn)]
      exact hnm
  · refine ⟨g, ?_, hnm⟩
    rw [alGet_alInsert_ne _ _ (Ne.symm hc)]
    exact hcat

theorem prune_step_preserves (components : J) (cat nm : String) :
    ∀ (pruned : List (String × J)) (ref : String),
      (∃ g, alGet pruned cat = some (J.obj g) ∧
            alGet g nm = some (jgetD (jgetD components cat J.null) nm J.null)) →
      (∃ g, alGet
          ((fun pruned ref =>
            if py_starts_with ref "#/components/" then
              match splitChar '/' (ref.data.drop 13) with
              | [category, name] =>
                  let c : String := ⟨category⟩
                  let n : String := ⟨name⟩
                  if objMem components c && objMem (jgetD components c J.null) n then
                    pruned_add pruned c n (jgetD (jgetD components c J.null) n J.null)
                  else pruned
              | _ => pruned
            else pruned) pruned ref) cat = some (J.obj g) ∧
            alGet g nm = some (jgetD (jgetD components cat J.null) nm J.null)) := by
  intro pruned ref h
  simp only []
  split
  · split
    · split
      · exact pruned_add_preserves h (fun h1 h2 => by rw [h1, h2])
      · exact h
    · exact h
  · exact h

theorem prune_mem (components : J) (needed : List String) (r : String)
    (hr : r ∈ needed) (hpre : py_starts_with r "#/components/" = true)
    {cs ns : List Char}
    (hsplit : splitChar '/' (r.data.drop 13) = [cs, ns])
    (hcond : (objMem components ⟨cs⟩ &&
              objMem (jgetD components ⟨cs⟩ J.null) ⟨ns⟩) = true) :
    ∃ g, alGet (prune_components components needed) ⟨cs⟩ = some (J.obj g) ∧
         alGet g ⟨ns⟩ =
           some (jgetD (jgetD components ⟨cs⟩ J.null) ⟨ns⟩ J.null) := by
  unfold prune_components
  refine foldl_established _ _
    (prune_step_preserves components ⟨cs⟩ ⟨ns⟩) ?_ _ _
    (mem_sort_strings.mpr hr)
  intro acc
  simp only [hpre, if_true, hsplit, hcond]
  exact pruned_add_self acc _ _ _

theorem prune_inv_pruned_add (components : J) {pruned : List (String × J)}
    (hInv : ∀ cat cv, alGet pruned cat = some cv →
      ∃ g, cv = J.obj g ∧
        ∀ nm v, alGet g nm = some v →
          objMem components cat = true ∧
          objMem (jgetD components cat J.null) nm = true ∧
          v = jgetD (jgetD components cat J.null) nm J.null)
    {c n : String}
    (hc1 : objMem components c = true)
    (hc2 : objMem (jgetD components c J.null) n = true) :
    ∀ cat cv,
      alGet (pruned_add pruned c n (jgetD (jgetD components c J.null) n J.null)) cat =
        some cv →
      ∃ g, cv = J.obj g ∧
        ∀ nm v, alGet g nm = some v →
          objMem components cat = true ∧
          objMem (jgetD components cat J.null) nm = true ∧
          v = jgetD (jgetD components cat J.null) nm J.null := by
  intro cat cv hcv
  unfold pruned_add at hcv
  by_cases hc : c = cat
  · subst hc
    rw [alGet_alInsert_self] at hcv
    injection hcv with hcv
    subst hcv
    refine ⟨_, rfl, ?_⟩
    intro nm v hv
    by_cases hn : n = nm
    · subst hn
      rw [alGet_alInsert_self] at hv
      injection hv with hv
      exact ⟨hc1, hc2, hv.symm⟩
    · rw [alGet_alInsert_ne _ _ (Ne.symm hn)] at hv
      cases hcur : alGet pruned c with
      | none =>
          rw [hcur] at hv
          cases hv
      | some cv0 =>
          rcases hInv c cv0 hcur with ⟨g0, rfl, hg0⟩
          rw [hcur] at hv
          exact hg0 nm v hv
  · rw [alGet_alInsert_ne _ _ (Ne.symm hc)] at hcv
    exact hInv cat cv hcv

theorem prune_sound (components : J) (needed : List String) :
    ∀ cat cv, alGet (prune_components components needed) cat = some cv →
      ∃ g, cv = J.obj g ∧
        ∀ nm v, alGet g nm = some v →
          objMem components cat = true ∧
          objMem (jgetD components cat J.null) nm = true ∧
          v = jgetD (jgetD components cat J.null) nm J.null := by
  unfold prune_components
  apply foldl_preserve _
    (fun pruned => ∀ cat cv, alGet pruned cat = some cv →
      ∃ g, cv = J.obj g ∧
        ∀ nm v, alGet g nm = some v →
          objMem components cat = true ∧
          objMem (jgetD components cat J.null) nm = true ∧
          v = jgetD (jgetD components cat J.null) nm J.null)
  · intro acc ref hInv
    simp only []
    split
    · split
      · split
        · rename_i hcond
          rw [Bool.and_eq_true] at hcond
          exact prune_inv_pruned_add components hInv hcond.1 hcond.2
        · exact hInv
      · exact hInv
    · exact hInv
  · intro cat cv hcv
    cases hcv

/-! Bridges between the component-pointer shape and the prune/resolve
string operations. -/

theorem starts_drop {r pre : String} (h : py_starts_with r pre = true) :
    r.data = pre.data ++ r.data.drop pre.data.length := by
  rcases List.isPrefixOf_iff_prefix.mp h with ⟨t, ht⟩
  have hd : r.data.drop pre.data.length = t := by
    rw [← ht]
    exact List.drop_left pre.data t
  rw [hd, ht]

theorem component_shaped_iff (r : String) :
    component_shaped r = true ↔
      ∃ c1 c2, splitChar '/' (r.data.drop 2) = ["components".data, c1, c2] := by
  unfold component_shaped
  cases hs : splitChar '/' (r.data.drop 2) with
  | nil => simp
  | cons a t =>
      cases t with
      | nil => simp
      | cons b t2 =>
          cases t2 with
          | nil => simp
          | cons c t3 =>
              cases t3 with
              | nil =>
                  simp only [decide_eq_true_eq, List.cons.injEq, and_true]
                  constructor
                  · rintro rfl
                    exact ⟨b, c, rfl, rfl, rfl⟩
                  · rintro ⟨c1, c2, h1, h2, h3⟩
                    exact h1
              | cons d t4 => simp

theorem splitChar_append {c : Char} :
    ∀ {a : List Char}, c ∉ a → ∀ (b : List Char),
      splitChar c (a ++ c :: b) = a :: splitChar c b
  | [], _, b => by
      rcases splitChar_shape c b with ⟨h, t, heq⟩
      simp [splitChar, heq]
  | x :: a, hx, b => by
      have hxc : ¬ x = c := fun e => hx (e ▸ List.mem_cons_self x a)
      have ha : c ∉ a := fun e => hx (List.mem_cons_of_mem _ e)
      have hrec : splitChar c (a.append (c :: b)) = a :: splitChar c b :=
        splitChar_append ha b
      simp only [List.cons_append, splitChar]
      rw [hrec]
      simp [hxc]

theorem shape_to_prefix13 {r : String} {c1 c2 : List Char}
    (hsh : py_starts_with r "#/" = true)
    (hsp : splitChar '/' (r.data.drop 2) = ["components".data, c1, c2]) :
    py_starts_with r "#/components/" = true ∧
      splitChar '/' (r.data.drop 13) = [c1, c2] ∧
      '/' ∉ c1 ∧ '/' ∉ c2 := by
  have hdata : r.data = "#/".data ++ r.data.drop 2 := starts_drop hsh
  rcases splitChar_eq_cons hsp with ⟨hps, _⟩ | ⟨rest1, hdrop2, hsp1⟩
  · cases hps
  rcases splitChar_eq_cons hsp1 with ⟨hps, _⟩ | ⟨rest2, hrest1, hsp2⟩
  · cases hps
  have hrest2 : rest2 = c2 := by
    rcases splitChar_eq_cons hsp2 with ⟨_, h⟩ | ⟨rest3, _, hsp3⟩
    · exact h
    · exfalso
      rcases splitChar_shape '/' rest3 with ⟨h0, t0, heq⟩
      rw [heq] at hsp3
      cases hsp3
  have hc1 : '/' ∉ c1 := not_mem_of_mem_splitChar (by rw [hsp1]; exact List.mem_cons_self _ _)
  have hc2 : '/' ∉ c2 := not_mem_of_mem_splitChar
    (by rw [hsp]; exact List.mem_cons_of_mem _ (List.mem_cons_of_mem _ (List.mem_cons_self _ _)))
  have hrest : rest1 = c1 ++ '/' :: c2 := by rw [hrest1, hrest2]
  have hr13 : r.data = "#/components/".data ++ rest1 := by
    rw [hdata, hdrop2]
    rfl
  have hpre13 : py_starts_with r "#/components/" = true :=
    List.isPrefixOf_iff_prefix.mpr ⟨rest1, hr13.symm⟩
  have hdrop13 : r.data.drop 13 = rest1 := by
    rw [hr13]
    exact List.drop_left "#/components/".data rest1
  refine ⟨hpre13, ?_, hc1, hc2⟩
  rw [hdrop13, hrest, splitChar_append hc1 c2, splitChar_of_not_mem hc2]

theorem resolve_shape {r : String} {c1 c2 : List Char} (X : J)
    (hsh : py_starts_with r "#/" = true)
    (hsp : splitChar '/' (r.data.drop 2) = ["components".data, c1, c2]) :
    resolve_ref r X = walk_pointer X ["components", ⟨c1⟩, ⟨c2⟩] := by
  unfold resolve_ref
  rw [if_pos hsh]
  unfold split_slash
  rw [show (⟨r.data.drop 2⟩ : String).data = r.data.drop 2 from rfl, hsp]
  rfl

/-! The component walk expressed through the prune conditions. -/

theorem objMem_eq_isSome (o : J) (k : String) : objMem o k = (jget o k).isSome := by
  cases o with
  | obj fs => exact alMem_eq_isSome fs k
  | null => rfl
  | jb _ => rfl
  | ji _ => rfl
  | js _ => rfl
  | arr _ => rfl

theorem jget_of_objMem {o : J} {k : String} (h : objMem o k = true) :
    jget o k = some (jgetD o k J.null) := by
  rw [objMem_eq_isSome] at h
  rcases Option.isSome_iff_exists.mp h with ⟨v, hv⟩
  rw [jgetD, hv]
  rfl

theorem jget_some_of_objMem_default {o : J} {k k' : String}
    (h : objMem (jgetD o k (J.obj [])) k' = true) :
    jget o k = some (jgetD o k (J.obj [])) := by
  cases hj : jget o k with
  | some u => rw [jgetD, hj]; rfl
  | none =>
      rw [jgetD, hj] at h
      simp [objMem, objFieldsOf, alMem] at h

theorem walk_components_of_conds {S : J} {cat nm : String}
    (h1 : objMem (jgetD S "components" (J.obj [])) cat = true)
    (h2 : objMem (jgetD (jgetD S "components" (J.obj [])) cat J.null) nm = true) :
    walk_pointer S ["components", cat, nm] =
      some (jgetD (jgetD (jgetD S "components" (J.obj [])) cat J.null) nm J.null) := by
  have hcomp : jget S "components" = some (jgetD S "components" (J.obj [])) :=
    jget_some_of_objMem_default h1
  have hcat : jget (jgetD S "components" (J.obj [])) cat =
      some (jgetD (jgetD S "components" (J.obj [])) cat J.null) := jget_of_objMem h1
  have hnm : jget (jgetD (jgetD S "components" (J.obj [])) cat J.null) nm =
      some (jgetD (jgetD (jgetD S "components" (J.obj [])) cat J.null) nm J.null) :=
    jget_of_objMem h2
  simp only [walk_pointer, hcomp, hcat, hnm]

theorem conds_of_walk_components {S : J} {cat nm : String} {v : J}
    (h : walk_pointer S ["components", cat, nm] = some v) :
    objMem (jgetD S "components" (J.obj [])) cat = true ∧
      objMem (jgetD (jgetD S "components" (J.obj [])) cat J.null) nm = true ∧
      jgetD (jgetD (jgetD S "components" (J.obj [])) cat J.null) nm J.null = v := by
  cases hcomp : jget S "components" with
  | none => simp [walk_pointer, hcomp] at h
  | some u =>
      simp only [walk_pointer, hcomp] at h
      have hu : jgetD S "components" (J.obj []) = u := by rw [jgetD, hcomp]; rfl
      cases hcat : jget u cat with
      | none => simp [hcat] at h
      | some w =>
          simp only [hcat] at h
          have hw : jgetD u cat J.null = w := by rw [jgetD, hcat]; rfl
          cases hnm : jget w nm with
          | none => simp [hnm] at h
          | some v' =>
              simp only [hnm, Option.some_inj] at h
              subst h
              refine ⟨?_, ?_, ?_⟩
              · rw [hu, objMem_eq_isSome, hcat]; rfl
              · rw [hu, hw, objMem_eq_isSome, hnm]; rfl
              · rw [hu, hw, jgetD, hnm]; rfl

/-! Agreement between the closure over the original schema and over the
extraction result. -/

theorem refs_loop_mono_fuel (schema : J) :
    ∀ (f g : Nat) (init : List String), f ≤ g →
      refs_loop schema f init <+: refs_loop schema g init
  | 0, g, init, _ => refs_loop_grows schema g init
  | f + 1, 0, init, h => absurd h (by omega)
  | f + 1, g + 1, init, h => by
      simp only [refs_loop]
      by_cases hl : (refs_pass schema init).length = init.length
      · simp [hl]
      · simp only [hl, if_false]
        exact refs_loop_mono_fuel schema f g _ (by omega)

theorem refs_loop_le_needed (S kept : J) :
    ∀ (f : Nat) (x : String),
      x ∈ refs_loop S f (collect_refs [] kept) → x ∈ needed_refs S kept := by
  intro f x hx
  set init := collect_refs [] kept with hinit
  set fuelS := init.length + (collect_refs [] S).length + 1 with hfuel
  by_cases hle : f ≤ fuelS
  · exact (refs_loop_mono_fuel S f fuelS init hle).subset hx
  · have hfix : refs_pass S (refs_loop S fuelS init) = refs_loop S fuelS init :=
      needed_refs_fix S kept
    have : refs_loop S (fuelS + (f - fuelS)) init = refs_loop S fuelS init :=
      refs_loop_fuel_mono S fuelS (f - fuelS) init hfix
    rw [show fuelS + (f - fuelS) = f from by omega] at this
    rw [this] at hx
    exact hx

theorem refsOf_obj_nil : refsOf (J.obj []) = ∅ := by
  rw [refsOf_obj]
  simp [alGet, refsOfFields_nil]

theorem refsOf_kept_subset_schema (S : J) (P : List String) :
    refsOf (J.obj (kept_paths (jgetD S "paths" (J.obj [])) P)) ⊆ refsOf S := by
  refine (refsOf_kept_paths _ P).trans ?_
  refine (refsOf_jgetD S "paths" (J.obj [])).trans ?_
  rw [refsOf_obj_nil]
  simp

theorem mem_refsOf_schema_of_needed {S : J} {P : List String} {r : String}
    (h : r ∈ needed_refs S (J.obj (kept_paths (jgetD S "paths" (J.obj [])) P))) :
    r ∈ refsOf S := by
  rcases needed_refs_subset h with h' | h'
  · exact refsOf_kept_subset_schema S P h'
  · exact h'

theorem jgetD_extract_paths (S : J) (P : List String) :
    jgetD (extract_paths S P) "paths" (J.obj []) =
      J.obj (kept_paths (jgetD S "paths" (J.obj [])) P) := by
  rw [jgetD, extract_paths_jget_paths]
  rfl

theorem walk_obj_components {T : J} {pruned g : List (String × J)} {cat nm : String} {v : J}
    (hT : jget T "components" = some (J.obj pruned))
    (hpg : alGet pruned cat = some (J.obj g)) (hgn : alGet g nm = some v) :
    walk_pointer T ["components", cat, nm] = some v := by
  have h2 : jget (J.obj pruned) cat = some (J.obj g) := hpg
  have h3 : jget (J.obj g) nm = some v := hgn
  simp only [walk_pointer, hT, h2, h3]

theorem alGet_ne_nil_of_some {fs : List (String × J)} {k : String} {v : J}
    (h : alGet fs k = some v) : fs.isEmpty = false := by
  cases fs with
  | nil => cases h
  | cons p fs => rfl

theorem resolve_agree (S : J) (P : List String)
    (H : ∀ r ∈ refsOf S, py_starts_with r "#/" = true → component_shaped r = true)
    {r : String}
    (hrN : r ∈ needed_refs S (J.obj (kept_paths (jgetD S "paths" (J.obj [])) P))) :
    resolve_ref r S = resolve_ref r (extract_paths S P) := by
  by_cases hlocal : py_starts_with r "#/" = true
  · have hrS : r ∈ refsOf S := mem_refsOf_schema_of_needed hrN
    rcases (component_shaped_iff r).mp (H r hrS hlocal) with ⟨c1, c2, hsp⟩
    rcases shape_to_prefix13 hlocal hsp with ⟨hpre13, hsplit13, _, _⟩
    rw [resolve_shape S hlocal hsp, resolve_shape (extract_paths S P) hlocal hsp]
    cases hw : walk_pointer S ["components", ⟨c1⟩, ⟨c2⟩] with
    | some v =>
        rcases conds_of_walk_components hw with ⟨h1, h2, hval⟩
        rcases prune_mem (jgetD S "components" (J.obj []))
            (needed_refs S (J.obj (kept_paths (jgetD S "paths" (J.obj [])) P)))
            r hrN hpre13 hsplit13 (by rw [Bool.and_eq_true]; exact ⟨h1, h2⟩) with
          ⟨g, hpg, hgn⟩
        have hne : (prune_components (jgetD S "components" (J.obj []))
            (needed_refs S (J.obj (kept_paths (jgetD S "paths" (J.obj [])) P)))).isEmpty = false :=
          alGet_ne_nil_of_some hpg
        have hcompT : jget (extract_paths S P) "components" =
            some (J.obj (prune_components (jgetD S "components" (J.obj []))
              (needed_refs S (J.obj (kept_paths (jgetD S "paths" (J.obj [])) P))))) := by
          rw [extract_paths_jget_components, hne]
          rfl
        rw [walk_obj_components hcompT hpg (hgn.trans (by rw [hval]))]
    | none =>
        cases hwT : walk_pointer (extract_paths S P) ["components", ⟨c1⟩, ⟨c2⟩] with
        | none => rfl
        | some v =>
            exfalso
            rcases conds_of_walk_components hwT with ⟨h1T, h2T, hvalT⟩
            have hcompT : jget (extract_paths S P) "components" =
                some (jgetD (extract_paths S P) "components" (J.obj [])) :=
              jget_some_of_objMem_default h1T
            rw [extract_paths_jget_components] at hcompT
            by_cases hemp : (prune_components (jgetD S "components" (J.obj []))
                (needed_refs S (J.obj (kept_paths (jgetD S "paths" (J.obj [])) P)))).isEmpty
            · rw [if_pos hemp] at hcompT
              cases hcompT
            · rw [if_neg hemp] at hcompT
              injection hcompT with hcompT
              rw [← hcompT] at h1T h2T
              rw [objMem_eq_isSome] at h1T
              rcases Option.isSome_iff_exists.mp h1T with ⟨cv, hcv⟩
              have hcv' : alGet (prune_components (jgetD S "components" (J.obj []))
                  (needed_refs S (J.obj (kept_paths (jgetD S "paths" (J.obj [])) P))))
                  ⟨c1⟩ = some cv := hcv
              rcases prune_sound _ _ _ _ hcv' with ⟨g, rfl, hg⟩
              have hjq : jget (J.obj (prune_components (jgetD S "components" (J.obj []))
                  (needed_refs S (J.obj (kept_paths (jgetD S "paths" (J.obj [])) P)))))
                  ⟨c1⟩ = some (J.obj g) := hcv'
              have hjD : jgetD (J.obj (prune_components (jgetD S "components" (J.obj []))
                  (needed_refs S (J.obj (kept_paths (jgetD S "paths" (J.obj [])) P)))))
                  ⟨c1⟩ J.null = J.obj g := by
                rw [jgetD, hjq]
                rfl
              rw [hjD, objMem_eq_isSome] at h2T
              rcases Option.isSome_iff_exists.mp h2T with ⟨v', hv'⟩
              rcases hg _ _ hv' with ⟨hc1, hc2, _⟩
              rw [walk_components_of_conds hc1 hc2] at hw
              cases hw
  · have hf : py_starts_with r "#/" = false := Bool.not_eq_true _ |>.mp hlocal
    unfold resolve_ref
    rw [hf]
    simp

theorem refs_pass_agree (S : J) (P : List String)
    (H : ∀ r ∈ refsOf S, py_starts_with r "#/" = true → component_shaped r = true)
    {s : List String}
    (hs : ∀ x ∈ s, x ∈ needed_refs S (J.obj (kept_paths (jgetD S "paths" (J.obj [])) P))) :
    refs_pass S s = refs_pass (extract_paths S P) s := by
  unfold refs_pass
  apply foldl_congr_mem
  intro acc r hr
  rw [resolve_agree S P H (hs r hr)]

theorem needed_refs_extract_eq (S : J) (P : List String)
    (H : ∀ r ∈ refsOf S, py_starts_with r "#/" = true → component_shaped r = true) :
    needed_refs (extract_paths S P) (J.obj (kept_paths (jgetD S "paths" (J.obj [])) P)) =
      needed_refs S (J.obj (kept_paths (jgetD S "paths" (J.obj [])) P)) := by
  have hagree : ∀ f,
      refs_loop S f (collect_refs [] (J.obj (kept_paths (jgetD S "paths" (J.obj [])) P))) =
      refs_loop (extract_paths S P) f
        (collect_refs [] (J.obj (kept_paths (jgetD S "paths" (J.obj [])) P))) := by
    intro f
    apply refs_loop_agree S (extract_paths S P)
      (needed_refs S (J.obj (kept_paths (jgetD S "paths" (J.obj [])) P)))
    · intro s hs
      exact refs_pass_agree S P H hs
    · exact fun x hx =>
        refs_loop_le_needed S (J.obj (kept_paths (jgetD S "paths" (J.obj [])) P)) f x hx
  have hle := refs_loop_le_needed S (J.obj (kept_paths (jgetD S "paths" (J.obj [])) P))
  have hfixS := needed_refs_fix S (J.obj (kept_paths (jgetD S "paths" (J.obj [])) P))
  have hfixT := needed_refs_fix (extract_paths S P)
    (J.obj (kept_paths (jgetD S "paths" (J.obj [])) P))
  unfold needed_refs at hfixS hfixT ⊢
  simp only at hfixS hfixT ⊢
  set T := extract_paths S P with hTdef
  set kept := kept_paths (jgetD S "paths" (J.obj [])) P with hkept
  set init := collect_refs [] (J.obj kept) with hinitdef
  set fuelS := init.length + (collect_refs [] S).length + 1 with hfS
  set fuelT := init.length + (collect_refs [] T).length + 1 with hfT
  have hfixST : refs_pass S (refs_loop S fuelT init) = refs_loop S fuelT init := by
    rw [refs_pass_agree S P H (fun x hx => hle fuelT x hx)]
    rw [hagree fuelT]
    exact hfixT
  calc refs_loop T fuelT init
      = refs_loop S fuelT init := (hagree fuelT).symm
    _ = refs_loop S (fuelT + fuelS) init :=
        (refs_loop_fuel_mono S fuelT fuelS init hfixST).symm
    _ = refs_loop S (fuelS + fuelT) init := by rw [Nat.add_comm]
    _ = refs_loop S fuelS init := refs_loop_fuel_mono S fuelS fuelT init hfixS

theorem kept_paths_congr {A B : J} {P : List String}
    (h : ∀ p ∈ P, jget A p = jget B p) : kept_paths A P = kept_paths B P := by
  unfold kept_paths
  apply foldl_congr_mem
  intro acc p hp
  rw [h p hp]

theorem kept_paths_extract (S : J) (P : List String) :
    kept_paths (jgetD (extract_paths S P) "paths" (J.obj [])) P =
      kept_paths (jgetD S "paths" (J.obj [])) P := by
  rw [jgetD_extract_paths]
  apply kept_paths_congr
  intro p hp
  show alGet (kept_paths (jgetD S "paths" (J.obj [])) P) p = _
  rw [alGet_kept_paths]
  by_cases hs : (jget (jgetD S "paths" (J.obj [])) p).isSome
  · rw [if_pos ⟨hp, hs⟩]
  · rw [if_neg (fun hc => hs hc.2)]
    cases hjp : jget (jgetD S "paths" (J.obj [])) p with
    | none => rfl
    | some v => rw [hjp] at hs; exact absurd rfl hs

theorem starts_comp_imp_local {r : String}
    (h : py_starts_with r "#/components/" = true) : py_starts_with r "#/" = true := by
  apply List.isPrefixOf_iff_prefix.mpr
  refine List.IsPrefix.trans ⟨"components/".data, rfl⟩ ?_
  exact List.isPrefixOf_iff_prefix.mp h

theorem jgetD_extract_openapi (S : J) (P : List String) :
    jgetD (extract_paths S P) "openapi" (J.js "3.0.0") =
      jgetD S "openapi" (J.js "3.0.0") := by
  rw [jgetD, extract_paths_jget_openapi]
  rfl

theorem jgetD_extract_info (S : J) (P : List String) :
    jgetD (extract_paths S P) "info" (J.obj []) = jgetD S "info" (J.obj []) := by
  rw [jgetD, extract_paths_jget_info]
  rfl

theorem prune_conds_reflect (S : J) (P : List String) {cat nm : String}
    (h1T : objMem (jgetD (extract_paths S P) "components" (J.obj [])) cat = true)
    (h2T : objMem (jgetD (jgetD (extract_paths S P) "components" (J.obj [])) cat J.null)
      nm = true) :
    objMem (jgetD S "components" (J.obj [])) cat = true ∧
    objMem (jgetD (jgetD S "components" (J.obj [])) cat J.null) nm = true ∧
    jgetD (jgetD (jgetD (extract_paths S P) "components" (J.obj [])) cat J.null) nm J.null =
      jgetD (jgetD (jgetD S "components" (J.obj [])) cat J.null) nm J.null := by
  have hcompT : jget (extract_paths S P) "components" =
      some (jgetD (extract_paths S P) "components" (J.obj [])) :=
    jget_some_of_objMem_default h1T
  rw [extract_paths_jget_components] at hcompT
  by_cases hemp : (prune_components (jgetD S "components" (J.obj []))
      (needed_refs S (J.obj (kept_paths (jgetD S "paths" (J.obj [])) P)))).isEmpty
  · rw [if_pos hemp] at hcompT
    cases hcompT
  · rw [if_neg hemp] at hcompT
    injection hcompT with hcompT
    rw [← hcompT] at h1T h2T ⊢
    rw [objMem_eq_isSome] at h1T
    rcases Option.isSome_iff_exists.mp h1T with ⟨cv, hcv⟩
    have hcv' : alGet (prune_components (jgetD S "components" (J.obj []))
        (needed_refs S (J.obj (kept_paths (jgetD S "paths" (J.obj [])) P)))) cat =
        some cv := hcv
    rcases prune_sound _ _ _ _ hcv' with ⟨g, rfl, hg⟩
    have hjq : jget (J.obj (prune_components (jgetD S "components" (J.obj []))
        (needed_refs S (J.obj (kept_paths (jgetD S "paths" (J.obj [])) P)))))
        cat = some (J.obj g) := hcv'
    have hjD : jgetD (J.obj (prune_components (jgetD S "components" (J.obj []))
        (needed_refs S (J.obj (kept_paths (jgetD S "paths" (J.obj [])) P)))))
        cat J.null = J.obj g := by
      rw [jgetD, hjq]
      rfl
    rw [hjD] at h2T ⊢
    rw [objMem_eq_isSome] at h2T
    rcases Option.isSome_iff_exists.mp h2T with ⟨v', hv'⟩
    rcases hg _ _ hv' with ⟨hc1, hc2, hval⟩
    refine ⟨hc1, hc2, ?_⟩
    rw [jgetD]
    have hjgv : jget (J.obj g) nm = some v' := hv'
    rw [hjgv]
    exact hval

theorem prune_conds_transfer (S : J) (P : List String) {r : String} {cs ns : List Char}
    (hrN : r ∈ needed_refs S (J.obj (kept_paths (jgetD S "paths" (J.obj [])) P)))
    (hpre13 : py_starts_with r "#/components/" = true)
    (hsplit13 : splitChar '/' (r.data.drop 13) = [cs, ns])
    (h1 : objMem (jgetD S "components" (J.obj [])) ⟨cs⟩ = true)
    (h2 : objMem (jgetD (jgetD S "components" (J.obj [])) ⟨cs⟩ J.null) ⟨ns⟩ = true) :
    objMem (jgetD (extract_paths S P) "components" (J.obj [])) ⟨cs⟩ = true ∧
    objMem (jgetD (jgetD (extract_paths S P) "components" (J.obj [])) ⟨cs⟩ J.null)
      ⟨ns⟩ = true := by
  rcases prune_mem (jgetD S "components" (J.obj []))
      (needed_refs S (J.obj (kept_paths (jgetD S "paths" (J.obj [])) P)))
      r hrN hpre13 hsplit13 (by rw [Bool.and_eq_true]; exact ⟨h1, h2⟩) with ⟨g, hpg, hgn⟩
  have hne : (prune_components (jgetD S "components" (J.obj []))
      (needed_refs S (J.obj (kept_paths (jgetD S "paths" (J.obj [])) P)))).isEmpty = false :=
    alGet_ne_nil_of_some hpg
  have hcompT : jget (extract_paths S P) "components" =
      some (J.obj (prune_components (jgetD S "components" (J.obj []))
        (needed_refs S (J.obj (kept_paths (jgetD S "paths" (J.obj [])) P))))) := by
    rw [extract_paths_jget_components, hne]
    rfl
  have hDT : jgetD (extract_paths S P) "components" (J.obj []) =
      J.obj (prune_components (jgetD S "components" (J.obj []))
        (needed_refs S (J.obj (kept_paths (jgetD S "paths" (J.obj [])) P)))) := by
    rw [jgetD, hcompT]
    rfl
  rw [hDT]
  constructor
  · rw [objMem_eq_isSome]
    have : jget (J.obj (prune_components (jgetD S "components" (J.obj []))
        (needed_refs S (J.obj (kept_paths (jgetD S "paths" (J.obj [])) P)))))
        ⟨cs⟩ = some (J.obj g) := hpg
    rw [this]
    rfl
  · have hjD : jgetD (J.obj (prune_components (jgetD S "components" (J.obj []))
        (needed_refs S (J.obj (kept_paths (jgetD S "paths" (J.obj [])) P)))))
        ⟨cs⟩ J.null = J.obj g := by
      rw [jgetD]
      have : jget (J.obj (prune_components (jgetD S "components" (J.obj []))
          (needed_refs S (J.obj (kept_paths (jgetD S "paths" (J.obj [])) P)))))
          ⟨cs⟩ = some (J.obj g) := hpg
      rw [this]
      rfl
    rw [hjD, objMem_eq_isSome]
    have : jget (J.obj g) ⟨ns⟩ =
        some (jgetD (jgetD (jgetD S "components" (J.obj [])) ⟨cs⟩ J.null) ⟨ns⟩ J.null) := hgn
    rw [this]
    rfl

theorem prune_extract_eq (S : J) (P : List String)
    (H : ∀ r ∈ refsOf S, py_starts_with r "#/" = true → component_shaped r = true) :
    prune_components (jgetD (extract_paths S P) "components" (J.obj []))
        (needed_refs S (J.obj (kept_paths (jgetD S "paths" (J.obj [])) P))) =
      prune_components (jgetD S "components" (J.obj []))
        (needed_refs S (J.obj (kept_paths (jgetD S "paths" (J.obj [])) P))) := by
  unfold prune_components
  apply foldl_congr_mem
  intro acc r hr
  have hrN : r ∈ needed_refs S (J.obj (kept_paths (jgetD S "paths" (J.obj [])) P)) :=
    mem_sort_strings.mp hr
  by_cases hpre : py_starts_with r "#/components/" = true
  · have hlocal := starts_comp_imp_local hpre
    have hrS : r ∈ refsOf S := mem_refsOf_schema_of_needed hrN
    rcases (component_shaped_iff r).mp (H r hrS hlocal) with ⟨c1, c2, hsp⟩
    rcases shape_to_prefix13 hlocal hsp with ⟨_, hsplit13, _, _⟩
    simp only [hpre, if_true, hsplit13]
    by_cases hbS : (objMem (jgetD S "components" (J.obj [])) ⟨c1⟩ &&
        objMem (jgetD (jgetD S "components" (J.obj [])) ⟨c1⟩ J.null) ⟨c2⟩) = true
    · have hbS2 := hbS
      rw [Bool.and_eq_true] at hbS2
      rcases hbS2 with ⟨h1, h2⟩
      rcases prune_conds_transfer S P hrN hpre hsplit13 h1 h2 with ⟨h1T, h2T⟩
      rcases prune_conds_reflect S P h1T h2T with ⟨_, _, hval⟩
      have hbT : (objMem (jgetD (extract_paths S P) "components" (J.obj [])) ⟨c1⟩ &&
          objMem (jgetD (jgetD (extract_paths S P) "components" (J.obj [])) ⟨c1⟩ J.null)
            ⟨c2⟩) = true := by
        rw [Bool.and_eq_true]
        exact ⟨h1T, h2T⟩
      simp only [hbS, hbT, if_true]
      rw [hval]
    · have hbT : (objMem (jgetD (extract_paths S P) "components" (J.obj [])) ⟨c1⟩ &&
          objMem (jgetD (jgetD (extract_paths S P) "components" (J.obj [])) ⟨c1⟩ J.null)
            ⟨c2⟩) = false := by
        rcases Bool.eq_false_or_eq_true (objMem (jgetD (extract_paths S P) "components"
            (J.obj [])) ⟨c1⟩ &&
            objMem (jgetD (jgetD (extract_paths S P) "components" (J.obj [])) ⟨c1⟩ J.null)
              ⟨c2⟩) with h | h
        · exfalso
          rw [Bool.and_eq_true] at h
          rcases h with ⟨h1T, h2T⟩
          rcases prune_conds_reflect S P h1T h2T with ⟨h1, h2, _⟩
          apply hbS
          rw [Bool.and_eq_true]
          exact ⟨h1, h2⟩
        · exact h
      have hbS' := Bool.not_eq_true _ |>.mp hbS
      simp [hbS', hbT]
  · have hf := Bool.not_eq_true _ |>.mp hpre
    simp [hf]

theorem extract_paths_eq (schema : J) (P : List String) :
    extract_paths schema P =
      (if (prune_components (jgetD schema "components" (J.obj []))
            (needed_refs schema
              (J.obj (kept_paths (jgetD schema "paths" (J.obj [])) P)))).isEmpty
       then J.obj [("openapi", jgetD schema "openapi" (J.js "3.0.0")),
                   ("info", jgetD schema "info" (J.obj [])),
                   ("paths", J.obj (kept_paths (jgetD schema "paths" (J.obj [])) P))]
       else J.obj ([("openapi", jgetD schema "openapi" (J.js "3.0.0")),
                    ("info", jgetD schema "info" (J.obj [])),
                    ("paths", J.obj (kept_paths (jgetD schema "paths" (J.obj [])) P))] ++
                   [("components", J.obj (prune_components
                      (jgetD schema "components" (J.obj []))
                      (needed_refs schema
                        (J.obj (kept_paths (jgetD schema "paths" (J.obj [])) P)))))])) :=
  rfl

theorem extract_paths_idem (S : J) (P : List String)
    (H : ∀ r ∈ refsOf S, py_starts_with r "#/" = true → component_shaped r = true) :
    extract_paths (extract_paths S P) P = extract_paths S P := by
  rw [extract_paths_eq (extract_paths S P) P]
  rw [kept_paths_extract S P]
  rw [needed_refs_extract_eq S P H]
  rw [prune_extract_eq S P H]
  rw [jgetD_extract_openapi S P]
  rw [jgetD_extract_info S P]
  rw [← extract_paths_eq S P]

/-! Lemmas on the diff side. -/

theorem alMem_iff_mem_keys {fs : List (String × J)} {k : String} :
    alMem fs k = true ↔ k ∈ keysOfList fs := by
  unfold alMem keysOfList
  rw [List.any_eq_true]
  constructor
  · rintro ⟨p, hp, hb⟩
    rw [beq_iff_eq] at hb
    subst hb
    exact List.mem_map_of_mem Prod.fst hp
  · intro hk
    rcases List.mem_map.mp hk with ⟨p, hp, hpk⟩
    exact ⟨p, hp, by rw [beq_iff_eq]; exact hpk⟩

theorem dumps_eq_self (a : J) : dumps_eq a a = true := by
  simp [dumps_eq]

theorem mem_sorted_union {l1 l2 : List String} {x : String} :
    x ∈ sorted_union l1 l2 ↔ x ∈ l1 ∨ x ∈ l2 := by
  unfold sorted_union
  rw [mem_sort_strings, List.mem_append, List.mem_filter]
  constructor
  · rintro (h | ⟨h, _⟩)
    · exact Or.inl h
    · exact Or.inr h
  · rintro (h | h)
    · exact Or.inl h
    · by_cases h1 : x ∈ l1
      · exact Or.inl h1
      · refine Or.inr ⟨h, ?_⟩
        simp only [Bool.not_eq_true']
        rcases Bool.eq_false_or_eq_true (l1.contains x) with hc | hc
        · exact absurd (contains_iff_mem.mp hc) h1
        · exact hc

theorem sorted_sdiff_self (l : List String) : sorted_sdiff l l = [] := by
  unfold sorted_sdiff
  rw [show l.filter (fun x => !l.contains x) = [] from ?_]
  · rfl
  · rw [List.filter_eq_nil]
    intro x hx
    simpa using hx

theorem foldl_opt_append (g : String → Option String) :
    ∀ (l : List String) (init : List String),
      List.foldl (fun acc k => acc ++ (g k).toList) init l = init ++ l.filterMap g
  | [], init => by simp
  | k :: l, init => by
      rw [List.foldl_cons, foldl_opt_append g l]
      cases hg : g k with
      | none => simp [hg]
      | some m => simp [hg]

theorem foldl_map_append (f : String → String) :
    ∀ (l : List String) (init : List String),
      List.foldl (fun acc k => acc ++ [f k]) init l = init ++ l.map f
  | [], init => by simp
  | k :: l, init => by
      rw [List.foldl_cons, foldl_map_append f l]
      simp

theorem foldl_flat_append {α : Type} (g : α → List String) :
    ∀ (l : List α) (init : List String),
      List.foldl (fun acc x => acc ++ g x) init l = init ++ (l.map g).join
  | [], init => by simp
  | x :: l, init => by
      rw [List.foldl_cons, foldl_flat_append g l]
      simp

theorem param_step_eq (tag : String) (op np : List (String × J))
    (acc : List String) (key : String) :
    (if !alMem op key then acc ++ [tag ++ " param added: " ++ key]
     else if !alMem np key then acc ++ [tag ++ " param removed: " ++ key]
     else if !dumps_eq (alGetD op key J.null) (alGetD np key J.null) then
       acc ++ [tag ++ " param changed: " ++ key]
     else acc) = acc ++ (param_descriptor tag op np key).toList := by
  unfold param_descriptor
  cases ho : alGet op key with
  | none =>
      have hm : alMem op key = false := by rw [alMem_eq_isSome, ho]; rfl
      simp [hm]
  | some o =>
      have hm : alMem op key = true := by rw [alMem_eq_isSome, ho]; rfl
      cases hn : alGet np key with
      | none =>
          have hm2 : alMem np key = false := by rw [alMem_eq_isSome, hn]; rfl
          simp [hm, hm2]
      | some n =>
          have hm2 : alMem np key = true := by rw [alMem_eq_isSome, hn]; rfl
          have hgo : alGetD op key J.null = o := by rw [alGetD, ho]; rfl
          have hgn : alGetD np key J.null = n := by rw [alGetD, hn]; rfl
          rw [hgo] at *
          by_cases hd : dumps_eq o n = true
          · simp [hm, hm2, hgo, hgn, hd]
          · have hd' := Bool.not_eq_true _ |>.mp hd
            simp [hm, hm2, hgo, hgn, hd']

theorem diff_operation_eq (method : String) (old new : J) :
    diff_operation method old new =
      (sorted_union (keysOfList (param_map (params_of old)))
          (keysOfList (param_map (params_of new)))).filterMap
        (param_descriptor (py_upper method) (param_map (params_of old))
          (param_map (params_of new))) ++
      ((if dumps_eq ((extract_body_schema old).getD J.null)
            ((extract_body_schema new).getD J.null) then []
        else [py_upper method ++ " request body changed"]) ++
      ((sorted_sdiff (response_keys new) (response_keys old)).map
        (fun code => py_upper method ++ " response added: " ++ code) ++
      (sorted_sdiff (response_keys old) (response_keys new)).map
        (fun code => py_upper method ++ " response removed: " ++ code))) := by
  unfold diff_operation
  simp only [param_step_eq]
  rw [foldl_opt_append, foldl_map_append, foldl_map_append]
  by_cases hd : dumps_eq ((extract_body_schema old).getD J.null)
      ((extract_body_schema new).getD J.null) = true
  · simp [hd]
  · have hd' := Bool.not_eq_true _ |>.mp hd
    simp [hd']

theorem diff_operation_self (m : String) (o : J) : diff_operation m o o = [] := by
  rw [diff_operation_eq, sorted_sdiff_self]
  simp only [dumps_eq_self, if_true, List.map_nil, List.append_nil, List.nil_append]
  rw [List.filterMap_eq_nil]
  intro key hk
  have hkm : key ∈ keysOfList (param_map (params_of o)) := by
    rcases mem_sorted_union.mp hk with h | h
    · exact h
    · exact h
  have hm := alMem_iff_mem_keys.mpr hkm
  rw [alMem_eq_isSome] at hm
  rcases Option.isSome_iff_exists.mp hm with ⟨v, hv⟩
  unfold param_descriptor
  rw [hv]
  simp [dumps_eq_self]

theorem method_step_eq (old new : J) (diffs : List String) (m : String) :
    (if py_starts_with m "x-" || m == "parameters" then diffs
     else if objMem new m && !objMem old m then
       diffs ++ ["method added: " ++ py_upper m]
     else if objMem old m && !objMem new m then
       diffs ++ ["method removed: " ++ py_upper m]
     else if objMem old m && objMem new m then
       diffs ++ diff_operation m (jgetD old m J.null) (jgetD new m J.null)
     else diffs) = diffs ++ method_descriptor old new m := by
  unfold method_descriptor
  by_cases hx : (py_starts_with m "x-" || m == "parameters") = true
  · simp [hx]
  · have hx' := Bool.not_eq_true _ |>.mp hx
    cases ho : jget old m with
    | none =>
        have hom : objMem old m = false := by rw [objMem_eq_isSome, ho]; rfl
        cases hn : jget new m with
        | none =>
            have hnm : objMem new m = false := by rw [objMem_eq_isSome, hn]; rfl
            simp [hx', hom, hnm]
        | some n =>
            have hnm : objMem new m = true := by rw [objMem_eq_isSome, hn]; rfl
            simp [hx', hom, hnm]
    | some o =>
        have hom : objMem old m = true := by rw [objMem_eq_isSome, ho]; rfl
        have hgo : jgetD old m J.null = o := by rw [jgetD, ho]; rfl
        cases hn : jget new m with
        | none =>
            have hnm : objMem new m = false := by rw [objMem_eq_isSome, hn]; rfl
            simp [hx', hom, hnm]
        | some n =>
            have hnm : objMem new m = true := by rw [objMem_eq_isSome, hn]; rfl
            have hgn : jgetD new m J.null = n := by rw [jgetD, hn]; rfl
            simp [hx', hom, hnm, hgo, hgn]

theorem diff_path_item_eq (old new : J) :
    diff_path_item old new =
      ((sorted_union (keysOfList (objFieldsOf old))
          (keysOfList (objFieldsOf new))).map (method_descriptor old new)).join := by
  unfold diff_path_item
  simp only [method_step_eq]
  rw [foldl_flat_append]
  simp

theorem method_descriptor_self (x : J) (m : String) : method_descriptor x x m = [] := by
  unfold method_descriptor
  split
  · rfl
  · cases hj : jget x m with
    | none => simp
    | some v => simp [diff_operation_self]

theorem diff_path_item_self (x : J) : diff_path_item x x = [] := by
  rw [diff_path_item_eq]
  simp [method_descriptor_self]

theorem foldl_const {α : Type} (init : List (String × List String)) (l : List α) :
    List.foldl (fun acc (_ : α) => acc) init l = init := by
  induction l with
  | nil => rfl
  | cons x l ih => exact ih

theorem foldl_bind_none : ∀ (l : List String),
    l.foldl (fun (c : Option J) p => c.bind (fun x => jget x p)) none = none
  | [] => rfl
  | _ :: l => foldl_bind_none l

theorem walk_pointer_foldl : ∀ (parts : List String) (cur : J),
    walk_pointer cur parts =
      parts.foldl (fun c p => c.bind (fun x => jget x p)) (some cur)
  | [], cur => rfl
  | p :: rest, cur => by
      rw [List.foldl_cons]
      show (match jget cur p with
            | some v => walk_pointer v rest
            | none => none) = _
      cases h : jget cur p with
      | some v =>
          rw [show (some cur).bind (fun x => jget x p) = some v from by simp [h]]
          exact walk_pointer_foldl rest v
      | none =>
          rw [show (some cur).bind (fun x => jget x p) = none from by simp [h]]
          exact (foldl_bind_none rest).symm

theorem match_getLast?_cons (q : J) (qs : List J) (b1 b2 : Option J) :
    (match (q :: qs).getLast? with | some x => some x | none => b1) =
    (match (q :: qs).getLast? with | some x => some x | none => b2) := by
  induction qs generalizing q with
  | nil => rfl
  | cons r rs ih =>
      rw [List.getLast?_cons_cons]
      exact ih r

theorem param_map_fold_alGet :
    ∀ (ps : List J) (acc : List (String × J)) (key : String),
      alGet (List.foldl (fun acc p => alInsert acc (param_key p) p) acc ps) key =
        (match (ps.filter (fun p => param_key p == key)).getLast? with
         | some q => some q
         | none => alGet acc key)
  | [], acc, key => rfl
  | p :: ps, acc, key => by
      rw [List.foldl_cons, param_map_fold_alGet ps]
      rw [List.filter_cons]
      by_cases hfk : (param_key p == key) = true
      · rw [if_pos hfk]
        cases hfil : ps.filter (fun p => param_key p == key) with
        | nil =>
            have hk := beq_iff_eq.mp hfk
            subst hk
            simp [hfil, List.getLast?, alGet_alInsert_self]
        | cons q qs =>
            rw [List.getLast?_cons_cons]
            exact match_getLast?_cons q qs (alGet (alInsert acc (param_key p) p) key)
              (alGet acc key)
      · rw [if_neg hfk]
        cases hfil : ps.filter (fun p => param_key p == key) with
        | nil =>
            have hne : key ≠ param_key p := fun e => hfk (by rw [e, beq_self_eq_true])
            simp [hfil, List.getLast?, alGet_alInsert_ne _ _ hne]
        | cons q qs =>
            exact match_getLast?_cons q qs (alGet (alInsert acc (param_key p) p) key)
              (alGet acc key)

/-! The claims. -/

/-- C1 (as frozen, refuted): it is not true for every schema and pattern
sequence that every local `#/`-rooted reference reachable from a kept path
item resolves within the extraction result.  A kept path item whose
`$ref` dangles in the input document (here `#/components/schemas/Missing`)
is still a local pointer reachable from the kept path, yet resolves to
nothing in the result, which gets no `components` section at all. -/
theorem c1_counterexample :
    ("#/components/schemas/Missing" ∈
        needed_refs
          (extract_paths (J.obj [("paths", J.obj [("/a",
              J.obj [("$ref", J.js "#/components/schemas/Missing")])])]) ["/a"])
          (jgetD (extract_paths (J.obj [("paths", J.obj [("/a",
              J.obj [("$ref", J.js "#/components/schemas/Missing")])])]) ["/a"])
            "paths" (J.obj []))) ∧
    py_starts_with "#/components/schemas/Missing" "#/" = true ∧
    resolve_ref "#/components/schemas/Missing"
      (extract_paths (J.obj [("paths", J.obj [("/a",
          J.obj [("$ref", J.js "#/components/schemas/Missing")])])]) ["/a"]) = none := by
  decide

/-- C1 (amended): for a document all of whose local references are
well-formed resolvable two-segment component pointers, the extraction
result is self-contained: every reference in the reference closure
computed from the result's kept paths over the result itself that is a
local `#/`-rooted pointer resolves to a non-absent value in the result. -/
theorem c1_closure_completeness (S : J) (P : List String)
    (H : ∀ r ∈ refsOf S, py_starts_with r "#/" = true → good_local_ref S r = true) :
    ∀ r ∈ needed_refs (extract_paths S P)
        (jgetD (extract_paths S P) "paths" (J.obj [])),
      py_starts_with r "#/" = true →
      (resolve_ref r (extract_paths S P)).isSome = true := by
  have Hshape : ∀ r ∈ refsOf S, py_starts_with r "#/" = true →
      component_shaped r = true := by
    intro r' hr' hl'
    have hg := H r' hr' hl'
    unfold good_local_ref at hg
    rw [Bool.and_eq_true] at hg
    exact hg.1
  intro r hr hlocal
  rw [jgetD_extract_paths] at hr
  rw [needed_refs_extract_eq S P Hshape] at hr
  have hrS : r ∈ refsOf S := mem_refsOf_schema_of_needed hr
  have hg := H r hrS hlocal
  unfold good_local_ref at hg
  rw [Bool.and_eq_true] at hg
  rw [← resolve_agree S P Hshape hr]
  exact hg.2

/-- C1 witness: the amended closure theorem applied at a concrete schema
whose single local reference is a resolvable component pointer. -/
theorem c1_closure_completeness_witness :
    (∀ r ∈ refsOf (J.obj [("paths", J.obj [("/a",
          J.obj [("$ref", J.js "#/components/schemas/A")])]),
        ("components", J.obj [("schemas", J.obj [("A", J.obj [])])])]),
      py_starts_with r "#/" = true →
      good_local_ref (J.obj [("paths", J.obj [("/a",
          J.obj [("$ref", J.js "#/components/schemas/A")])]),
        ("components", J.obj [("schemas", J.obj [("A", J.obj [])])])]) r = true) ∧
    (∀ r ∈ needed_refs
        (extract_paths (J.obj [("paths", J.obj [("/a",
            J.obj [("$ref", J.js "#/components/schemas/A")])]),
          ("components", J.obj [("schemas", J.obj [("A", J.obj [])])])]) ["/a"])
        (jgetD (extract_paths (J.obj [("paths", J.obj [("/a",
            J.obj [("$ref", J.js "#/components/schemas/A")])]),
          ("components", J.obj [("schemas", J.obj [("A", J.obj [])])])]) ["/a"])
          "paths" (J.obj [])),
      py_starts_with r "#/" = true →
      (resolve_ref r (extract_paths (J.obj [("paths", J.obj [("/a",
          J.obj [("$ref", J.js "#/components/schemas/A")])]),
        ("components", J.obj [("schemas", J.obj [("A", J.obj [])])])]) ["/a"])).isSome =
        true) :=
  ⟨by decide, c1_closure_completeness _ _ (by decide)⟩

/-- C2 (as frozen, refuted): re-extraction is not the identity on every
already-extracted schema.  A kept path can reach a component only through
a local reference into a non-`components` part of the document
(`#/extra` below): the first extraction keeps the component, but the
second extraction cannot resolve `#/extra` inside the result (the
`extra` entry is not copied), so the pruned `components` section is
dropped and the result shrinks. -/
theorem c2_counterexample :
    extract_paths
        (extract_paths (J.obj [("paths", J.obj [("/p",
            J.obj [("$ref", J.js "#/extra")])]),
          ("extra", J.obj [("$ref", J.js "#/components/schemas/X")]),
          ("components", J.obj [("schemas", J.obj [("X", J.obj [])])])]) ["/p"]) ["/p"] ≠
      extract_paths (J.obj [("paths", J.obj [("/p",
          J.obj [("$ref", J.js "#/extra")])]),
        ("extra", J.obj [("$ref", J.js "#/components/schemas/X")]),
        ("components", J.obj [("schemas", J.obj [("X", J.obj [])])])]) ["/p"] := by
  decide

/-- C2 (amended): for a document all of whose local references have the
two-segment component-pointer shape `#/components/<category>/<name>`,
extraction is idempotent: re-extracting an already-extracted subset
schema changes nothing. -/
theorem c2_extract_idempotent (S : J) (P : List String)
    (H : ∀ r ∈ refsOf S, py_starts_with r "#/" = true → component_shaped r = true) :
    extract_paths (extract_paths S P) P = extract_paths S P :=
  extract_paths_idem S P H

/-- C2 witness: idempotence applied at a concrete schema whose single
local reference is a component pointer. -/
theorem c2_extract_idempotent_witness :
    (∀ r ∈ refsOf (J.obj [("paths", J.obj [("/t",
          J.obj [("$ref", J.js "#/components/schemas/B")])]),
        ("components", J.obj [("schemas",
          J.obj [("B", J.obj [("type", J.js "string")])])])]),
      py_starts_with r "#/" = true → component_shaped r = true) ∧
    extract_paths
        (extract_paths (J.obj [("paths", J.obj [("/t",
            J.obj [("$ref", J.js "#/components/schemas/B")])]),
          ("components", J.obj [("schemas",
            J.obj [("B", J.obj [("type", J.js "string")])])])]) ["/t"]) ["/t"] =
      extract_paths (J.obj [("paths", J.obj [("/t",
          J.obj [("$ref", J.js "#/components/schemas/B")])]),
        ("components", J.obj [("schemas",
          J.obj [("B", J.obj [("type", J.js "string")])])])]) ["/t"] :=
  ⟨by decide, c2_extract_idempotent _ _ (by decide)⟩

/-- C3: `_diff_operation` returns exactly, in this order: the parameter
descriptors over the sorted union of the `<in>:<name>` keys of the two
sides' parameter maps (added for a key only in the new side, removed for
a key only in the old side, changed for a shared key whose parameter
objects differ under sorted-key deep structural equality); then at most
one request-body descriptor, emitted exactly when the schemas extracted
from `requestBody.content` (JSON media type, falling back to multipart)
differ under the same structural equality, absent bodies compared as
`null`; then one added-response line per status code only in the new
side in ascending order, followed by one removed-response line per code
only in the old side in ascending order; every string prefixed with the
upper-cased method name. -/
theorem c3_diff_operation_spec (method : String) (old new : J) :
    diff_operation method old new =
      (sorted_union (keysOfList (param_map (params_of old)))
          (keysOfList (param_map (params_of new)))).filterMap
        (param_descriptor (py_upper method) (param_map (params_of old))
          (param_map (params_of new))) ++
      ((if dumps_eq ((extract_body_schema old).getD J.null)
            ((extract_body_schema new).getD J.null) then []
        else [py_upper method ++ " request body changed"]) ++
      ((sorted_sdiff (response_keys new) (response_keys old)).map
        (fun code => py_upper method ++ " response added: " ++ code) ++
      (sorted_sdiff (response_keys old) (response_keys new)).map
        (fun code => py_upper method ++ " response removed: " ++ code))) :=
  diff_operation_eq method old new

/-- C4: `_diff_path_item` visits the sorted union of the two sides' keys
and concatenates, per method, the per-method descriptors: nothing for the
literal key `parameters` or keys starting with `x-`, an added or removed
line (method upper-cased) for one-sided methods, and the descriptors of
`_diff_operation` for shared methods. -/
theorem c4_diff_path_item_spec (old new : J) :
    diff_path_item old new =
      ((sorted_union (keysOfList (objFieldsOf old))
          (keysOfList (objFieldsOf new))).map (method_descriptor old new)).join :=
  diff_path_item_eq old new

/-- C5: with no paths filter, the added paths of `diff_schemas A B` are
exactly the removed paths of `diff_schemas B A`, and conversely. -/
theorem c5_diff_symmetry (A B : J) :
    (diff_schemas A B none).added_paths = (diff_schemas B A none).removed_paths ∧
    (diff_schemas A B none).removed_paths = (diff_schemas B A none).added_paths :=
  ⟨rfl, rfl⟩

/-- C6: diffing any schema against itself reports no changes, under any
optional paths filter: the added, removed and changed path collections are
all empty and `has_changes` is false. -/
theorem c6_diff_reflexivity (A : J) (filt : Option (List String)) :
    (diff_schemas A A filt).has_changes = false ∧
    (diff_schemas A A filt).added_paths = [] ∧
    (diff_schemas A A filt).removed_paths = [] ∧
    (diff_schemas A A filt).changed_paths = [] := by
  have h : diff_schemas A A filt = ⟨[], [], []⟩ := by
    unfold diff_schemas
    simp [diff_path_item_self, sorted_sdiff_self, foldl_const]
  exact ⟨by rw [h]; rfl, by rw [h], by rw [h], by rw [h]⟩

/-- C7: extraction is monotone in the pattern list: if every pattern of
`P1` is a pattern of `P2`, every path key kept by `extract_paths S P1`
is also kept by `extract_paths S P2`. -/
theorem c7_extraction_monotone (S : J) (P1 P2 : List String)
    (h : ∀ p ∈ P1, p ∈ P2) :
    ∀ k ∈ extracted_path_keys S P1, k ∈ extracted_path_keys S P2 := by
  intro k hk
  rw [mem_extracted_path_keys] at hk ⊢
  exact ⟨h k hk.1, hk.2⟩

/-- C7 witness: monotonicity applied at a concrete schema and a concrete
pair of pattern lists. -/
theorem c7_extraction_monotone_witness :
    (∀ p ∈ ["/a"], p ∈ ["/a", "/b"]) ∧
    (∀ k ∈ extracted_path_keys
        (J.obj [("paths", J.obj [("/a", J.obj []), ("/b", J.obj [])])]) ["/a"],
      k ∈ extracted_path_keys
        (J.obj [("paths", J.obj [("/a", J.obj []), ("/b", J.obj [])])]) ["/a", "/b"]) :=
  ⟨by decide, c7_extraction_monotone _ _ _ (by decide)⟩

/-- C8: `_resolve_ref` returns absent for any pointer not beginning with
`#/`, and otherwise walks the root one `/`-separated component at a time,
yielding absent as soon as a step fails and the pointed-to value when
every step succeeds — expressed by equality with the specification-side
fold `resolve_spec`; the model is a total function, so no fault is
possible and the root is never modified. -/
theorem c8_resolve_ref_spec (ref : String) (root : J) :
    resolve_ref ref root = resolve_spec ref root := by
  unfold resolve_ref resolve_spec
  by_cases h : py_starts_with ref "#/" = true
  · rw [if_pos h, if_pos h]
    exact walk_pointer_foldl _ root
  · rw [if_neg h, if_neg h]

/-- C9: the reference-closure computation terminates: one pass of the
fixed-point loop only ever extends the reference set (monotone growth),
the closure set is duplicate-free and bounded by the finite set of
reference strings occurring in the kept paths and the document, and the
fuelled loop reaches a fixed point — a further pass adds nothing, which
is exactly the `while` loop's exit condition. -/
theorem c9_closure_termination (schema kept : J) :
    (∀ s : List String, s <+: refs_pass schema s) ∧
    (needed_refs schema kept).Nodup ∧
    (∀ x ∈ needed_refs schema kept, x ∈ refsOf kept ∨ x ∈ refsOf schema) ∧
    refs_pass schema (needed_refs schema kept) = needed_refs schema kept := by
  refine ⟨fun s => refs_pass_grows schema s, ?_, ?_, needed_refs_fix schema kept⟩
  · unfold needed_refs
    exact refs_loop_nodup schema _ (collect_refs_nodup [] kept List.nodup_nil)
  · exact fun x hx => needed_refs_subset hx

/-- C9 witness: the closure-membership bound applied at a concrete
document and kept-paths object, with the concrete membership fact
discharged by evaluation. -/
theorem c9_closure_termination_witness :
    "#/components/schemas/T" ∈
      needed_refs
        (J.obj [("components", J.obj [("schemas", J.obj [("T", J.obj [])])])])
        (J.obj [("x", J.obj [("$ref", J.js "#/components/schemas/T")])]) ∧
    ("#/components/schemas/T" ∈
        refsOf (J.obj [("x", J.obj [("$ref", J.js "#/components/schemas/T")])]) ∨
      "#/components/schemas/T" ∈
        refsOf (J.obj [("components", J.obj [("schemas", J.obj [("T", J.obj [])])])])) :=
  ⟨by decide,
    (c9_closure_termination
        (J.obj [("components", J.obj [("schemas", J.obj [("T", J.obj [])])])])
        (J.obj [("x", J.obj [("$ref", J.js "#/components/schemas/T")])])).2.2.1
      "#/components/schemas/T" (by decide)⟩

/-- C10: the parameter map keys each parameter object by `<in>:<name>`
with `?` for a missing field, and when several parameters share a key the
last occurrence in the list wins — the lookup of the built map is the
last matching element of the parameter list, so earlier duplicates are
silently collapsed. -/
theorem c10_param_key_last_wins :
    (∀ (ps : List J) (key : String),
      alGet (param_map ps) key =
        (ps.filter (fun p => param_key p == key)).getLast?) ∧
    (∀ p : J, jget p "in" = none → jget p "name" = none → param_key p = "?:?") := by
  constructor
  · intro ps key
    unfold param_map
    rw [param_map_fold_alGet]
    cases h : (ps.filter (fun p => param_key p == key)).getLast? with
    | none => rfl
    | some q => rfl
  · intro p hin hname
    unfold param_key
    rw [jgetD, hin, jgetD, hname]
    rfl

/-- C10 witness: the last-wins lookup at a concrete duplicated parameter
list, and the missing-field fallback key applied at the empty object with
its hypotheses discharged by evaluation. -/
theorem c10_param_key_last_wins_witness :
    jget (J.obj []) "in" = none ∧ jget (J.obj []) "name" = none ∧
    param_key (J.obj []) = "?:?" ∧
    alGet (param_map
        [J.obj [("in", J.js "query"), ("name", J.js "a"), ("x", J.ji 1)],
          J.obj [("in", J.js "query"), ("name", J.js "a"), ("x", J.ji 2)]]) "query:a" =
      ([J.obj [("in", J.js "query"), ("name", J.js "a"), ("x", J.ji 1)],
          J.obj [("in", J.js "query"), ("name", J.js "a"), ("x", J.ji 2)]].filter
        (fun p => param_key p == "query:a")).getLast? :=
  ⟨by decide, by decide,
    c10_param_key_last_wins.2 (J.obj []) (by decide) (by decide),
    c10_param_key_last_wins.1 _ "query:a"⟩
